import Mathlib

/-!
Shallow embedding of `src/apps/docs/scripts/lint-external-links.ts`.

Documents are modelled as `List Char`.  Each definition mirrors one
function (or constant) of the TypeScript source; the platform pieces the
script relies on (the WHATWG `URL` class, Node's `path.extname`, the JS
regular-expression engine, the event loop) are embedded as executable
Lean functions that follow the observable semantics the script depends
on, restricted to the ASCII fragment the script manipulates.
-/

/-- The backtick character (code point 96). -/
def tick : Char := Char.ofNat 96

/-- ASCII whitespace as used by JavaScript's `\s` and `String.trim`
(space, tab, line feed, vertical tab, form feed, carriage return). -/
def isWsChar (c : Char) : Bool :=
  c = ' ' || c = Char.ofNat 9 || c = Char.ofNat 10 || c = Char.ofNat 11 ||
    c = Char.ofNat 12 || c = Char.ofNat 13

/-- `String.prototype.trim()`: drop whitespace from both ends. -/
def trimChars (l : List Char) : List Char :=
  ((l.dropWhile isWsChar).reverse.dropWhile isWsChar).reverse

/-- Number of newline characters in a document. -/
def countNl (l : List Char) : Nat := l.count (Char.ofNat 10)

/-- `content.slice(0, index).split("\n").length`: the number of newline
characters before `index`, plus one (a split on `"\n"` has one more
field than separators).  This is `lineNumberAt` of the source. -/
def lineNumberAt (content : List Char) (index : Nat) : Nat :=
  countNl (content.take index) + 1

/-- Split a document at the first occurrence of a triple backtick:
`splitTriple s = some (p, r)` when `s = p ++ [tick,tick,tick] ++ r` and
`p` contains no earlier triple.  `none` when no triple occurs. -/
def splitTriple : List Char → Option (List Char × List Char)
  | [] => none
  | c :: cs =>
    if c = tick ∧ cs.take 2 = [tick, tick] then some ([], cs.drop 2)
    else
      match splitTriple cs with
      | none => none
      | some (p, r) => some (c :: p, r)

/-- Leftmost lazy match of the regex `/```[\s\S]*?```/`: the text before
the opening fence, the fence body, and the text after the closing fence. -/
def findCodeBlock (s : List Char) : Option (List Char × List Char × List Char) :=
  match splitTriple s with
  | none => none
  | some (p, rest) =>
    match splitTriple rest with
    | none => none
    | some (b, r) => some (p, b, r)

/-- One rewrite step per fenced block: the matched block (fences
included) is replaced by as many newlines as the match contains, exactly
as `content.replace(CODE_BLOCK_REGEX, m => "\n".repeat(newlines(m)))`
does, then the replacement continues after the match.  The fuel is an
upper bound on the number of blocks; `stripCodeBlocks` supplies enough. -/
def stripAux : Nat → List Char → List Char
  | 0, s => s
  | fuel + 1, s =>
    match findCodeBlock s with
    | none => s
    | some (p, b, r) =>
      p ++ List.replicate (countNl b) (Char.ofNat 10) ++ stripAux fuel r

/-- `stripCodeBlocks` of the source. -/
def stripCodeBlocks (s : List Char) : List Char := stripAux s.length s

/-- Indices of the stripped document that are not inside a neutralized
code-block region (the text before a block, and recursively the kept
indices of the text after it). -/
def keptAux : Nat → List Char → Nat → Bool
  | 0, _, _ => true
  | fuel + 1, s, i =>
    match findCodeBlock s with
    | none => true
    | some (p, b, r) =>
      decide (i < p.length) ||
        (decide (p.length + countNl b ≤ i) && keptAux fuel r (i - (p.length + countNl b)))

/-- `keptIndex s i`: index `i` of `stripCodeBlocks s` lies outside every
neutralized code-block region. -/
def keptIndex (s : List Char) (i : Nat) : Bool := keptAux s.length s i

/-- The index of the original document corresponding to kept index `i`
of the stripped document. -/
def origAux : Nat → List Char → Nat → Nat
  | 0, _, i => i
  | fuel + 1, s, i =>
    match findCodeBlock s with
    | none => i
    | some (p, b, r) =>
      if i < p.length then i
      else p.length + 6 + b.length + origAux fuel r (i - (p.length + countNl b))

/-- Original-document index corresponding to kept stripped index `i`. -/
def origIndex (s : List Char) (i : Nat) : Nat := origAux s.length s i

/-!
## URL model

The script relies on the platform's WHATWG `URL` class.  We embed the
fragment of its observable behaviour the script uses: parsing of
absolute `http`/`https` URLs of the shape
`scheme://host[:port]path[?query][#fragment]` with ASCII hosts (scheme
and host lowercased, default and empty ports dropped, leading-zero
ports normalized, an empty path serialized as `/`), plus non-special
schemes (such as `mailto:`) kept as a scheme and opaque remainder.
Strings with no valid scheme (relative links) fail to parse.
Percent-encoding, userinfo, IPv6 hosts and non-ASCII hosts are outside
the model; the script's claims never involve them. -/

/-- ASCII uppercase test used by the case-lowering of scheme and host. -/
def isUpperChar (c : Char) : Bool := decide (65 ≤ c.toNat ∧ c.toNat ≤ 90)

/-- ASCII lowercasing (the fragment of `toLowerCase` the model needs). -/
def lowerChar (c : Char) : Char :=
  if 65 ≤ c.toNat ∧ c.toNat ≤ 90 then Char.ofNat (c.toNat + 32) else c

/-- ASCII letter. -/
def isAlphaChar (c : Char) : Bool :=
  decide ((65 ≤ c.toNat ∧ c.toNat ≤ 90) ∨ (97 ≤ c.toNat ∧ c.toNat ≤ 122))

/-- ASCII digit. -/
def isDigitChar (c : Char) : Bool := decide (48 ≤ c.toNat ∧ c.toNat ≤ 57)

/-- Characters allowed in a URL scheme (after the initial letter). -/
def isSchemeChar (c : Char) : Bool :=
  isAlphaChar c || isDigitChar c || c = '+' || c = '-' || c = '.'

/-- Characters our host model accepts (lowercase letter, digit, dot,
hyphen); anything else in a host position is a parse failure. -/
def isHostChar (c : Char) : Bool :=
  decide ((97 ≤ c.toNat ∧ c.toNat ≤ 122) ∨ (48 ≤ c.toNat ∧ c.toNat ≤ 57)) ||
    c = '.' || c = '-'

/-- A character that terminates the host of a special URL. -/
def isHostDelim (c : Char) : Bool := c = '/' || c = ':' || c = '?' || c = '#'

/-- A parsed URL: `special` for `http`/`https` (the only special schemes
the script can accept), `nonspecial` for every other scheme, kept as an
opaque remainder. -/
inductive ParsedUrl where
  | special (scheme host : List Char) (port : Option (List Char))
      (path : List Char) (query : Option (List Char)) (fragment : Option (List Char))
  | nonspecial (scheme rest : List Char)
deriving DecidableEq

/-- Port digits with leading zeros removed (`"0080"` and `"80"` denote
the same port); an all-zero string denotes port `0`. -/
def canonicalPortDigits (ds : List Char) : List Char :=
  let t := ds.dropWhile (fun c => c = '0')
  if ds ≠ [] ∧ t = [] then ['0'] else t

/-- The default port of a special scheme, as its canonical digit string. -/
def defaultPort (scheme : List Char) : List Char :=
  if scheme = "http".toList then "80".toList else "443".toList

/-- Parse an optional `:port` after the host.  Returns the canonical
port digits (`none` for an absent or empty port) and the remainder, or
`none` on an invalid port character. -/
def parsePortAndAfter (rest : List Char) : Option (Option (List Char) × List Char) :=
  match rest with
  | ':' :: pr =>
    let ds := pr.takeWhile isDigitChar
    let after := pr.drop ds.length
    match after.head? with
    | none =>
      some (if canonicalPortDigits ds = [] then none else some (canonicalPortDigits ds), after)
    | some c =>
      if c = '/' ∨ c = '?' ∨ c = '#' then
        some (if canonicalPortDigits ds = [] then none else some (canonicalPortDigits ds), after)
      else none
  | _ => some (none, rest)

/-- A path character: anything but the query and fragment delimiters. -/
def isPathChar (c : Char) : Bool := decide (c ≠ '?' ∧ c ≠ '#')

/-- A query character: anything but the fragment delimiter. -/
def isQueryChar (c : Char) : Bool := decide (c ≠ '#')

/-- Split the remainder after host and port into path, query, fragment;
an empty path serializes (and is stored) as `/`. -/
def parsePathQueryFrag (rest : List Char) : List Char × Option (List Char) × Option (List Char) :=
  let pathRaw := rest.takeWhile isPathChar
  let path := if pathRaw = [] then ['/'] else pathRaw
  match rest.drop pathRaw.length with
  | '?' :: qr =>
    let q := qr.takeWhile isQueryChar
    match qr.drop q.length with
    | '#' :: fr => (path, some q, some fr)
    | _ => (path, some q, none)
  | '#' :: fr => (path, none, some fr)
  | _ => (path, none, none)

/-- `new URL(s)` of the model: `none` is a parse failure (the
constructor throwing). -/
def urlParse (s : List Char) : Option ParsedUrl :=
  let scheme := s.takeWhile isSchemeChar
  match scheme.head? with
  | none => none
  | some c0 =>
    if isAlphaChar c0 then
      match s.drop scheme.length with
      | ':' :: rest1 =>
        let schemeL := scheme.map lowerChar
        if schemeL = "http".toList ∨ schemeL = "https".toList then
          let afterSlashes := rest1.dropWhile (fun c => c = '/')
          let hostRaw := afterSlashes.takeWhile (fun c => !(isHostDelim c))
          let hostL := hostRaw.map lowerChar
          if hostRaw = [] ∨ ¬ hostL.all isHostChar then none
          else
            match parsePortAndAfter (afterSlashes.drop hostRaw.length) with
            | none => none
            | some (portDigits, rest3) =>
              let port :=
                match portDigits with
                | none => none
                | some cp => if cp = defaultPort schemeL then none else some cp
              let pqf := parsePathQueryFrag rest3
              some (.special schemeL hostL port pqf.1 pqf.2.1 pqf.2.2)
        else some (.nonspecial schemeL rest1)
      | _ => none
    else none

/-- `url.toString()` of the model (the WHATWG serializer on the modelled
fragment). -/
def urlToString : ParsedUrl → List Char
  | .special scheme host port path query fragment =>
    scheme ++ (':' :: '/' :: '/' :: []) ++ host ++
      (match port with | none => [] | some p => ':' :: p) ++ path ++
      (match query with | none => [] | some q => '?' :: q) ++
      (match fragment with | none => [] | some f => '#' :: f)
  | .nonspecial scheme rest => scheme ++ ':' :: rest

/-- `url.protocol`: the scheme followed by a colon. -/
def protocolOf : ParsedUrl → List Char
  | .special scheme _ _ _ _ _ => scheme ++ [':']
  | .nonspecial scheme _ => scheme ++ [':']

/-- `url.hostname` (empty for non-special URLs, as for `mailto:`). -/
def hostnameOf : ParsedUrl → List Char
  | .special _ host _ _ _ _ => host
  | .nonspecial _ _ => []

/-- `url.pathname` (for non-special URLs, the opaque remainder up to the
query or fragment). -/
def pathnameOf : ParsedUrl → List Char
  | .special _ _ _ path _ _ => path
  | .nonspecial _ rest => rest.takeWhile isPathChar

/-- `toExternalHttpUrl` of the source: trim; reject the empty string,
parse failures, non-`http(s)` schemes and `localhost`; otherwise return
the normalized serialization. -/
def toExternalHttpUrl (raw : List Char) : Option (List Char) :=
  let trimmed := trimChars raw
  if trimmed = [] then none
  else
    match urlParse trimmed with
    | none => none
    | some parsed =>
      if protocolOf parsed ≠ "http:".toList ∧ protocolOf parsed ≠ "https:".toList then none
      else if hostnameOf parsed = "localhost".toList then none
      else some (urlToString parsed)

/-- `stripQueryAndHash` of the source: `url.split(/[?#]/, 1)[0]`. -/
def stripQueryAndHash (url : List Char) : List Char := url.takeWhile isPathChar

/-- `IMAGE_EXTENSIONS` of the source. -/
def IMAGE_EXTENSIONS : List (List Char) :=
  [".png".toList, ".jpg".toList, ".jpeg".toList, ".gif".toList, ".webp".toList,
    ".svg".toList, ".avif".toList, ".bmp".toList, ".ico".toList]

/-- Node's `path.extname` on the modelled fragment: the suffix of the
last path component from its last dot, or empty when the component has
no dot or only a leading dot (a dotfile). -/
def extname (p : List Char) : List Char :=
  let base := (p.reverse.takeWhile (fun c => c ≠ '/')).reverse
  let revTail := base.reverse.takeWhile (fun c => c ≠ '.')
  if base = ['.', '.'] then []
  else if revTail.length + 1 < base.length then base.drop (base.length - (revTail.length + 1))
  else []

/-- `isImageUrl` of the source: strip query and hash, parse; on success
test the extension of the pathname, on parse failure the extension of
the stripped string itself. -/
def isImageUrl (url : List Char) : Bool :=
  let noQuery := stripQueryAndHash url
  match urlParse noQuery with
  | some parsed => IMAGE_EXTENSIONS.contains ((extname (pathnameOf parsed)).map lowerChar)
  | none => IMAGE_EXTENSIONS.contains ((extname noQuery).map lowerChar)

/-!
## Link extraction

Each regex of the source is embedded as a deterministic matcher trying
to match at the head of the remaining document, plus a scanner that
walks the document left to right, recording every match and resuming
after its end — the semantics of a `while (exec)` loop over a sticky
global regex.  All matches the source's patterns can produce are
non-empty, so the JS empty-match `lastIndex` bump never fires. -/

/-- `extractMarkdownUrl` of the source: trim, unwrap `<...>`, else take
the text before the first whitespace. -/
def extractMarkdownUrl (raw : List Char) : List Char :=
  let trimmed := trimChars raw
  if trimmed = [] then []
  else if trimmed.head? = some '<' ∧ trimmed.contains '>' then
    trimChars ((trimmed.drop 1).takeWhile (fun c => c ≠ '>'))
  else trimmed.takeWhile (fun c => !(isWsChar c))

/-- A character the markdown-link text class `[^\]]*` accepts. -/
def notRBracket (c : Char) : Bool := decide (c ≠ ']')

/-- A character the markdown-link target class `[^)\n]+` accepts. -/
def mdUrlChar (c : Char) : Bool := decide (c ≠ ')' ∧ c ≠ Char.ofNat 10)

/-- Try the body of `MARKDOWN_LINK_REGEX` (everything after the
lookbehind), `\[[^\]]*]\(([^)\n]+)\)`, at the head of `s`; returns the
captured target and the match length. -/
def mdLinkMatchAt (s : List Char) : Option (List Char × Nat) :=
  match s with
  | '[' :: rest =>
    let inner := rest.takeWhile notRBracket
    match rest.drop inner.length with
    | ']' :: '(' :: rest2 =>
      let url := rest2.takeWhile mdUrlChar
      if url = [] then none
      else
        match (rest2.drop url.length).head? with
        | some ')' => some (url, 1 + inner.length + 2 + url.length + 1)
        | _ => none
    | _ => none
  | _ => none

/-- Scanner for `MARKDOWN_LINK_REGEX`: `prev` is the character before
the current position (for the `(?<!!)` lookbehind), `i` the current
index.  On a match the scan resumes after it; otherwise it advances one
character.  Fuel is the length of the remaining document. -/
def mdScanAux : Nat → Option Char → List Char → Nat → List (List Char × Nat)
  | 0, _, _, _ => []
  | fuel + 1, prev, s, i =>
    match s with
    | [] => []
    | c :: cs =>
      if c = '[' ∧ prev ≠ some '!' then
        match mdLinkMatchAt (c :: cs) with
        | some (cap, len) =>
          (cap, i) :: mdScanAux fuel ((c :: cs).drop (len - 1)).head? ((c :: cs).drop len) (i + len)
        | none => mdScanAux fuel (some c) cs (i + 1)
      else mdScanAux fuel (some c) cs (i + 1)

/-- All matches of `MARKDOWN_LINK_REGEX` over the document: captured
target and match start index. -/
def mdLinkMatches (s : List Char) : List (List Char × Nat) := mdScanAux s.length none s 0

/-- A character the autolink class `[^>\s]+` accepts. -/
def autoUrlChar (c : Char) : Bool := !(c = '>' : Bool) && !(isWsChar c)

/-- Try `AUTOLINK_REGEX`, `<((?:https?:\/\/)[^>\s]+)>`, at the head. -/
def autoMatchAt (s : List Char) : Option (List Char × Nat) :=
  match s with
  | '<' :: rest =>
    let schemeLen :=
      if rest.take 8 = "https://".toList then 8
      else if rest.take 7 = "http://".toList then 7
      else 0
    if schemeLen = 0 then none
    else
      let body := (rest.drop schemeLen).takeWhile autoUrlChar
      if body = [] then none
      else
        match ((rest.drop schemeLen).drop body.length).head? with
        | some '>' => some (rest.take schemeLen ++ body, 1 + schemeLen + body.length + 1)
        | _ => none
  | _ => none

/-- A word character, for the `\b` boundaries of `HTML_ANCHOR_REGEX`. -/
def isWordChar (c : Char) : Bool := isAlphaChar c || isDigitChar c || c = '_'

/-- A character the lazy `.` of `HTML_ANCHOR_REGEX` accepts (no `s`
flag: line terminators are excluded). -/
def dotChar (c : Char) : Bool :=
  decide (c ≠ Char.ofNat 10 ∧ c ≠ Char.ofNat 13 ∧ c.toNat ≠ 8232 ∧ c.toNat ≠ 8233)

/-- A quote character, for `(["'])`. -/
def isQuoteChar (c : Char) : Bool := c = '"' || c = Char.ofNat 39

/-- Try `href=(["'])(.*?)\1` (case-insensitive on `href`) at the head of
`l`: the captured attribute value and the consumed length. -/
def anchorTail (l : List Char) : Option (List Char × Nat) :=
  if (l.take 5).map lowerChar = "href=".toList then
    match l.drop 5 with
    | q :: rest =>
      if isQuoteChar q then
        let content := rest.takeWhile (fun c => dotChar c && !(c = q : Bool))
        match (rest.drop content.length).head? with
        | some c2 => if c2 = q then some (content, 5 + 1 + content.length + 1) else none
        | none => none
      else none
    | [] => none
  else none

/-- One candidate split of `[^>]*` at `j` characters: the `\b` before
`href` requires the preceding character (`a` of the tag when `j = 0`)
to be a non-word character. -/
def anchorValidAt (a : Char) (rest : List Char) (j : Nat) : Option (List Char × Nat) :=
  let prevOk :=
    match j with
    | 0 => !(isWordChar a)
    | k + 1 =>
      match rest.drop k with
      | pc :: _ => !(isWordChar pc)
      | [] => false
  if prevOk then (anchorTail (rest.drop j)).map (fun ct => (ct.1, 2 + j + ct.2)) else none

/-- Try `HTML_ANCHOR_REGEX`, `<a\b[^>]*\bhref=(["'])(.*?)\1` with the
`i` flag, at the head.  The greedy backtracking `[^>]*` takes the
longest prefix of non-`>` characters after which the rest of the
pattern still matches, hence the search from the largest `j` down. -/
def anchorMatchAt (s : List Char) : Option (List Char × Nat) :=
  match s with
  | '<' :: c :: rest =>
    if lowerChar c = 'a' then
      match rest.head? with
      | some d =>
        if isWordChar d then none
        else
          (List.range ((rest.takeWhile (fun ch => ch ≠ '>')).length + 1)).reverse.findSome?
            (anchorValidAt c rest)
      | none => none
    else none
  | _ => none

/-- Generic scanner (no lookbehind): try `matchAt` at every position,
resume after each match. -/
def scanAux (matchAt : List Char → Option (List Char × Nat)) :
    Nat → List Char → Nat → List (List Char × Nat)
  | 0, _, _ => []
  | fuel + 1, s, i =>
    match s with
    | [] => []
    | c :: cs =>
      match matchAt (c :: cs) with
      | some (cap, len) => (cap, i) :: scanAux matchAt fuel ((c :: cs).drop len) (i + len)
      | none => scanAux matchAt fuel cs (i + 1)

/-- All matches of `AUTOLINK_REGEX`. -/
def autolinkMatches (s : List Char) : List (List Char × Nat) := scanAux autoMatchAt s.length s 0

/-- All matches of `HTML_ANCHOR_REGEX`. -/
def anchorMatches (s : List Char) : List (List Char × Nat) := scanAux anchorMatchAt s.length s 0

/-- The markdown-link `while` loop of `collectFileLinks`: extract the
target from the capture, drop empty extractions, parse-and-filter, skip
images, record the normalized URL with its 1-based line. -/
def mdPipeline (content : List Char) : List (List Char × Nat) :=
  (mdLinkMatches content).filterMap fun m =>
    let extracted := extractMarkdownUrl m.1
    if extracted = [] then none
    else
      match toExternalHttpUrl extracted with
      | none => none
      | some ext => if isImageUrl ext then none else some (ext, lineNumberAt content m.2)

/-- The autolink and anchor `while` loops of `collectFileLinks` (the
capture is used directly, without `extractMarkdownUrl`). -/
def rawPipeline (content : List Char) (ms : List (List Char × Nat)) : List (List Char × Nat) :=
  ms.filterMap fun m =>
    match toExternalHttpUrl m.1 with
    | none => none
    | some ext => if isImageUrl ext then none else some (ext, lineNumberAt content m.2)

/-- `collectFileLinks` of the source, on a document's raw text: strip
code blocks, then run the three matchers in source order. -/
def collectFileLinks (rawContent : List Char) : List (List Char × Nat) :=
  let content := stripCodeBlocks rawContent
  mdPipeline content ++ rawPipeline content (autolinkMatches content) ++
    rawPipeline content (anchorMatches content)

/-!
## Link records

`main` folds every file's links into a `Map<string, LinkOccurrence[]>`;
a JS `Map` keeps keys in insertion order and `set` on an existing key
keeps its position, which an association list models exactly. -/

/-- A `LinkOccurrence`: source file and 1-based line. -/
abbrev LinkOccurrence := String × Nat

/-- Record one occurrence: append to an existing record's list, else
append a fresh record at the end. -/
def addOcc (m : List (List Char × List LinkOccurrence)) (u : List Char)
    (o : LinkOccurrence) : List (List Char × List LinkOccurrence) :=
  match m with
  | [] => [(u, [o])]
  | (k, os) :: rest => if k = u then (k, os ++ [o]) :: rest else (k, os) :: addOcc rest u o

/-- The inner loop of `main` for one file. -/
def recordFile (m : List (List Char × List LinkOccurrence)) (fname : String)
    (content : List Char) : List (List Char × List LinkOccurrence) :=
  (collectFileLinks content).foldl (fun acc l => addOcc acc l.1 (fname, l.2)) m

/-- The extraction phase of `main` over a corpus of (file name, raw
text) pairs, in scan order. -/
def buildRecords (files : List (String × List Char)) : List (List Char × List LinkOccurrence) :=
  files.foldl (fun acc fc => recordFile acc fc.1 fc.2) []

/-!
## Checker

`fetch` outcomes are embedded as data: a response status, or a thrown
value (a JS `Error` with a name and message, or a non-`Error` value).
`fetchWithTimeout` races the request against a 10-second abort timer:
a request that has not completed within `TIMEOUT_MS` is aborted, and an
aborted `fetch` rejects with an `Error` named `AbortError`. -/

/-- `TIMEOUT_MS` of the source. -/
def TIMEOUT_MS : Nat := 10000

/-- `MAX_CONCURRENCY` of the source. -/
def MAX_CONCURRENCY : Nat := 15

/-- `ACCEPTED_STATUSES` of the source. -/
def ACCEPTED_STATUSES : List Nat := [403, 429]

/-- A value `fetch` can throw. -/
inductive FetchError where
  | err (name message : String)
  | nonError
deriving DecidableEq

/-- What a `fetch` produces: a response (its status) or a rejection. -/
inductive FetchOutcome where
  | success (status : Nat)
  | failure (e : FetchError)
deriving DecidableEq

/-- The behaviour of one request: how long the server takes, and what
the fetch would produce if it is not aborted first. -/
structure FetchSpec where
  delayMs : Nat
  result : FetchOutcome
deriving DecidableEq

/-- `fetchWithTimeout` of the source: abort (an `AbortError` rejection)
when the timer fires before the response arrives. -/
def fetchWithTimeout (spec : FetchSpec) : FetchOutcome :=
  if TIMEOUT_MS ≤ spec.delayMs then
    .failure (.err "AbortError" "This operation was aborted")
  else spec.result

/-- A `CheckResult`: `{ ok: boolean, reason?: string }`. -/
structure CheckResult where
  ok : Bool
  reason : Option String
deriving DecidableEq

/-- The GET-escalation predicate of `checkUrl`:
`response.status >= 400 || response.status === 429`. -/
def escalates (status : Nat) : Bool := decide (400 ≤ status) || decide (status = 429)

/-- The simpler predicate the spec says is observably equivalent. -/
def escalatesSimple (status : Nat) : Bool := decide (400 ≤ status)

/-- The classification of the final response in `checkUrl`. -/
def classifyResponse (status : Nat) : CheckResult :=
  if status = 404 then ⟨false, some "HTTP 404"⟩
  else if ACCEPTED_STATUSES.contains status then ⟨true, none⟩
  else if status < 200 ∨ 400 ≤ status then ⟨false, some ("HTTP " ++ toString status)⟩
  else ⟨true, none⟩

/-- The `catch` block of `checkUrl`. -/
def errorResult : FetchError → CheckResult
  | .err n m => if n = "AbortError" then ⟨false, some "timeout"⟩ else ⟨false, some m⟩
  | .nonError => ⟨false, some "unknown error"⟩

/-- `checkUrl` of the source, given the behaviours of the HEAD request
and of the fallback GET request (the latter only reached when the HEAD
response escalates). -/
def checkUrl (head get : FetchSpec) : CheckResult :=
  match fetchWithTimeout head with
  | .failure e => errorResult e
  | .success s =>
    if escalates s then
      match fetchWithTimeout get with
      | .failure e => errorResult e
      | .success s2 => classifyResponse s2
    else classifyResponse s

/-- `checkUrl` with the escalation condition simplified to `≥ 400`. -/
def checkUrlSimple (head get : FetchSpec) : CheckResult :=
  match fetchWithTimeout head with
  | .failure e => errorResult e
  | .success s =>
    if escalatesSimple s then
      match fetchWithTimeout get with
      | .failure e => errorResult e
      | .success s2 => classifyResponse s2
    else classifyResponse s

/-!
## Concurrency harness

`runWithConcurrency` spawns `min(limit, items.length)` async workers
over a shared cursor.  JavaScript's event loop interleaves them at
`await` points only, so reading `items[index]` and incrementing `index`
is one atomic step; processing (`await worker(item)`) is another.  A
schedule (the list of which worker the event loop resumes next) drives
the transition system; `Promise.all` resolves exactly when every worker
has observed an exhausted cursor. -/

/-- One worker: idle (`busy = none`), processing an item, or done. -/
structure WorkerState (α : Type) where
  busy : Option α
  done : Bool
deriving DecidableEq

/-- The pool: the shared cursor, the workers, and the log of processed
items with their results (the data a worker writes before returning to
the loop head). -/
structure PoolState (α β : Type) where
  cursor : Nat
  workers : List (WorkerState α)
  log : List (α × β)
deriving DecidableEq

/-- The initial pool: `Array.from({length: min(limit, n)}, ...)`. -/
def poolInit (α β : Type) (items : List α) (limit : Nat) : PoolState α β :=
  ⟨0, List.replicate (min limit items.length) ⟨none, false⟩, []⟩

/-- One event-loop step resuming worker `w`: an idle worker claims the
next item (or finishes when the cursor is exhausted); a processing
worker completes its `await`, logging the item's result. -/
def poolStep (items : List α) (f : α → β) (s : PoolState α β) (w : Nat) : PoolState α β :=
  match hw : s.workers[w]? with
  | none => s
  | some ws =>
    if ws.done then s
    else
      match ws.busy with
      | some a => ⟨s.cursor, s.workers.set w ⟨none, false⟩, s.log ++ [(a, f a)]⟩
      | none =>
        if h : s.cursor < items.length then
          ⟨s.cursor + 1, s.workers.set w ⟨some items[s.cursor], false⟩, s.log⟩
        else ⟨s.cursor, s.workers.set w ⟨none, true⟩, s.log⟩

/-- Run a schedule. -/
def poolRun (items : List α) (f : α → β) (limit : Nat) (sched : List Nat) : PoolState α β :=
  sched.foldl (poolStep items f) (poolInit α β items limit)

/-- `Promise.all(workers)` has resolved: every worker is done. -/
def poolDone (s : PoolState α β) : Bool := s.workers.all (·.done)

/-!
## Failure reports and sorting

`failed.sort((a, b) => a.url.localeCompare(b.url))`: the comparator is
`String.prototype.localeCompare`, which under Node's default ICU
(CLDR root / English) collation is not code-point order.  It is
modelled here on the printable-ASCII fragment the tool's URLs are made
of, following the Unicode Collation Algorithm: a primary pass compares
case-folded DUCET ranks (whitespace and punctuation before digits
before letters, with punctuation in DUCET order, e.g. `:` before `/`),
and on a primary tie a tertiary pass puts lowercase before uppercase.
Secondary (accent) differences do not arise in ASCII.  Characters
outside the modelled fragment fall back to code-point order after all
modelled characters.  `Array.prototype.sort` is modelled as a stable
insertion sort, which produces a sorted permutation as the platform
sort does. -/

/-- A `FailedResult` of the source. -/
structure FailedResult where
  url : List Char
  reason : String
  occurrences : List LinkOccurrence
deriving DecidableEq

/-- Code-point lexicographic order on URLs: the order the spec's words
"sorted lexicographically by URL" describe.  Kept as the refinement
target to compare with the `localeCompare` order the source actually
sorts by (they disagree on mixed-case URLs; see the C8 counterexample). -/
def lexLe : List Char → List Char → Bool
  | [], _ => true
  | _ :: _, [] => false
  | a :: as, b :: bs => if a < b then true else if b < a then false else lexLe as bs

/-- The printable-ASCII characters in DUCET primary order (case-folded:
each letter stands for its case pair), as extracted from the Unicode
Collation Algorithm's `allkeys` table with non-ignorable variables. -/
def ducetTable : List Char :=
  [' ', '_', '-', ',', ';', ':', '!', '?', '.', '\'', '"', '(', ')', '[', ']',
   '{', '}', '@', '*', '/', '\\', '&', '#', '%', Char.ofNat 96, '^', '+', '<',
   '=', '>', '|', '~', '$'] ++
  (List.range 10).map (fun i => Char.ofNat (48 + i)) ++
  (List.range 26).map (fun i => Char.ofNat (97 + i))

/-- Index of a character in a table. -/
def tableIdx : List Char → Char → Option Nat
  | [], _ => none
  | d :: rest, c => if d = c then some 0 else (tableIdx rest c).map (· + 1)

/-- The primary collation weight of a character: its case-folded DUCET
rank, with unmodelled characters after every modelled one in code-point
order. -/
def asciiPrimary (c : Char) : Nat :=
  match tableIdx ducetTable (lowerChar c) with
  | some i => i
  | none => 100 + c.toNat

/-- The tertiary collation weight: lowercase (and everything that is
not an uppercase letter) before uppercase. -/
def asciiTertiary (c : Char) : Nat :=
  if 65 ≤ c.toNat ∧ c.toNat ≤ 90 then 1 else 0

/-- Strict lexicographic order on weight sequences. -/
def listLexLt : List Nat → List Nat → Bool
  | [], [] => false
  | [], _ :: _ => true
  | _ :: _, [] => false
  | a :: as, b :: bs => if a < b then true else if b < a then false else listLexLt as bs

/-- `a.localeCompare(b) <= 0` of the model: compare the primary weight
sequences, and break a primary tie by the tertiary weight sequences. -/
def localeLe (a b : List Char) : Bool :=
  if listLexLt (a.map asciiPrimary) (b.map asciiPrimary) then true
  else if listLexLt (b.map asciiPrimary) (a.map asciiPrimary) then false
  else !(listLexLt (b.map asciiTertiary) (a.map asciiTertiary))

/-- Insert into a sorted list (stable: an equal key goes first). -/
def insertFailed (x : FailedResult) : List FailedResult → List FailedResult
  | [] => [x]
  | y :: ys => if localeLe x.url y.url then x :: y :: ys else y :: insertFailed x ys

/-- The model of `failed.sort((a, b) => a.url.localeCompare(b.url))`. -/
def sortFailed (l : List FailedResult) : List FailedResult := l.foldr insertFailed []

/-!
## Helper lemmas about the extraction pipeline
-/

/-- A successful `toExternalHttpUrl` exposes a parsed URL that passed
the scheme and host checks, and returns its serialization. -/
theorem toExternalHttpUrl_some {raw u : List Char} (h : toExternalHttpUrl raw = some u) :
    ∃ pu, urlParse (trimChars raw) = some pu ∧
      (protocolOf pu = "http:".toList ∨ protocolOf pu = "https:".toList) ∧
      hostnameOf pu ≠ "localhost".toList ∧ u = urlToString pu := by
  unfold toExternalHttpUrl at h
  by_cases he : trimChars raw = []
  · rw [if_pos he] at h
    exact absurd h (by simp)
  · rw [if_neg he] at h
    cases hp : urlParse (trimChars raw) with
    | none => rw [hp] at h; exact absurd h (by simp)
    | some pu =>
      rw [hp] at h
      have h' : (if protocolOf pu ≠ "http:".toList ∧ protocolOf pu ≠ "https:".toList then none
          else if hostnameOf pu = "localhost".toList then none
          else some (urlToString pu)) = some u := h
      refine ⟨pu, rfl, ?_⟩
      by_cases hpr : protocolOf pu ≠ "http:".toList ∧ protocolOf pu ≠ "https:".toList
      · rw [if_pos hpr] at h'
        exact absurd h' (by simp)
      · rw [if_neg hpr] at h'
        by_cases hh : hostnameOf pu = "localhost".toList
        · rw [if_pos hh] at h'
          exact absurd h' (by simp)
        · rw [if_neg hh] at h'
          have := Option.some.inj h'
          refine ⟨?_, hh, this.symm⟩
          by_cases h1 : protocolOf pu = "http:".toList
          · exact Or.inl h1
          · by_cases h2 : protocolOf pu = "https:".toList
            · exact Or.inr h2
            · exact absurd ⟨h1, h2⟩ hpr

/-- Every markdown-link pipeline output URL is a `toExternalHttpUrl`
success on which `isImageUrl` is false. -/
theorem mem_mdPipeline {content : List Char} {p : List Char × Nat}
    (h : p ∈ mdPipeline content) :
    ∃ raw, toExternalHttpUrl raw = some p.1 ∧ isImageUrl p.1 = false := by
  unfold mdPipeline at h
  rw [List.mem_filterMap] at h
  obtain ⟨m, _, hf⟩ := h
  by_cases he : extractMarkdownUrl m.1 = []
  · rw [if_pos he] at hf
    exact absurd hf (by simp)
  · rw [if_neg he] at hf
    cases hx : toExternalHttpUrl (extractMarkdownUrl m.1) with
    | none => rw [hx] at hf; exact absurd hf (by simp)
    | some ext =>
      rw [hx] at hf
      have hf' : (if isImageUrl ext = true then none
          else some (ext, lineNumberAt content m.2)) = some p := hf
      by_cases hi : isImageUrl ext = true
      · rw [if_pos hi] at hf'
        exact absurd hf' (by simp)
      · rw [if_neg hi] at hf'
        have := Option.some.inj hf'
        refine ⟨extractMarkdownUrl m.1, ?_, ?_⟩
        · rw [← this]; exact hx
        · rw [← this]; simpa using hi

/-- Every autolink/anchor pipeline output URL is a `toExternalHttpUrl`
success on which `isImageUrl` is false. -/
theorem mem_rawPipeline {content : List Char} {ms : List (List Char × Nat)}
    {p : List Char × Nat} (h : p ∈ rawPipeline content ms) :
    ∃ raw, toExternalHttpUrl raw = some p.1 ∧ isImageUrl p.1 = false := by
  unfold rawPipeline at h
  rw [List.mem_filterMap] at h
  obtain ⟨m, _, hf⟩ := h
  cases hx : toExternalHttpUrl m.1 with
  | none => rw [hx] at hf; exact absurd hf (by simp)
  | some ext =>
    rw [hx] at hf
    have hf' : (if isImageUrl ext = true then none
        else some (ext, lineNumberAt content m.2)) = some p := hf
    by_cases hi : isImageUrl ext = true
    · rw [if_pos hi] at hf'
      exact absurd hf' (by simp)
    · rw [if_neg hi] at hf'
      have := Option.some.inj hf'
      refine ⟨m.1, ?_, ?_⟩
      · rw [← this]; exact hx
      · rw [← this]; simpa using hi

/-- Every URL in a document's extracted link set is a
`toExternalHttpUrl` success on which `isImageUrl` is false. -/
theorem mem_collectFileLinks {rawContent : List Char} {p : List Char × Nat}
    (h : p ∈ collectFileLinks rawContent) :
    ∃ raw, toExternalHttpUrl raw = some p.1 ∧ isImageUrl p.1 = false := by
  unfold collectFileLinks at h
  rcases List.mem_append.mp h with h1 | h2
  · rcases List.mem_append.mp h1 with h3 | h4
    · exact mem_mdPipeline h3
    · exact mem_rawPipeline h4
  · exact mem_rawPipeline h2

/-!
## C1: classification of the final response
-/

/-- C1: for every checked URL, `checkUrl` classifies the final HTTP
response — the HEAD response, or the GET response when a fallback GET
was issued: 404 fails with reason "HTTP 404"; 403 and 429 pass; any
other status outside `[200, 400)` fails with reason "HTTP {status}";
any remaining status passes. -/
theorem C1_checkUrl_classifies_final_response (head get : FetchSpec) (hs fs : Nat)
    (hH : fetchWithTimeout head = .success hs)
    (hF : (if escalates hs then fetchWithTimeout get else .success hs) = .success fs) :
    checkUrl head get = classifyResponse fs ∧
    (fs = 404 → checkUrl head get = ⟨false, some "HTTP 404"⟩) ∧
    ((fs = 403 ∨ fs = 429) → checkUrl head get = ⟨true, none⟩) ∧
    (fs ≠ 404 → fs ≠ 403 → fs ≠ 429 → (fs < 200 ∨ 400 ≤ fs) →
      checkUrl head get = ⟨false, some ("HTTP " ++ toString fs)⟩) ∧
    (200 ≤ fs → fs < 400 → checkUrl head get = ⟨true, none⟩) := by
  have hcu : checkUrl head get = classifyResponse fs := by
    cases hesc : escalates hs with
    | true =>
      rw [hesc] at hF
      simp only [if_true] at hF
      simp [checkUrl, hH, hesc, hF]
    | false =>
      rw [hesc] at hF
      simp only [Bool.false_eq_true, if_false] at hF
      cases hF
      simp [checkUrl, hH, hesc]
  refine ⟨hcu, ?_, ?_, ?_, ?_⟩
  · intro h
    rw [hcu, h]
    rfl
  · intro h
    rw [hcu]
    unfold classifyResponse
    rcases h with h | h <;> subst h <;> rfl
  · intro h404 h403 h429 hrange
    rw [hcu]
    unfold classifyResponse ACCEPTED_STATUSES
    rw [if_neg h404, if_neg, if_pos hrange]
    simp only [List.contains_cons, List.contains_nil, Bool.or_eq_true, beq_iff_eq]
    intro h
    rcases h with h | h | h
    · exact h403 h
    · exact h429 h
    · simp at h
  · intro h200 h400
    rw [hcu]
    unfold classifyResponse ACCEPTED_STATUSES
    rw [if_neg (by omega), if_neg, if_neg (by omega)]
    simp only [List.contains_cons, List.contains_nil, Bool.or_eq_true, beq_iff_eq]
    intro h
    rcases h with h | h | h
    · omega
    · omega
    · simp at h

/-- Witness for C1 at a concrete input: HEAD 500 escalates, GET 404,
final classification is a failure with reason "HTTP 404". -/
theorem C1_checkUrl_classifies_final_response_witness :
    checkUrl ⟨0, .success 500⟩ ⟨0, .success 404⟩ = ⟨false, some "HTTP 404"⟩ :=
  (C1_checkUrl_classifies_final_response ⟨0, .success 500⟩ ⟨0, .success 404⟩ 500 404
    (by decide) (by decide)).2.1 rfl

/-!
## C7: timeout aborts report reason "timeout"
-/

/-- C7: whenever a request is aborted because the 10-second timeout
expires — the HEAD request, or the fallback GET request — `checkUrl`
fails with reason exactly "timeout". -/
theorem C7_timeout_reason (head get : FetchSpec) :
    (TIMEOUT_MS ≤ head.delayMs → checkUrl head get = ⟨false, some "timeout"⟩) ∧
    (∀ hs, fetchWithTimeout head = .success hs → escalates hs = true →
      TIMEOUT_MS ≤ get.delayMs → checkUrl head get = ⟨false, some "timeout"⟩) := by
  constructor
  · intro h
    unfold checkUrl fetchWithTimeout
    rw [if_pos h]
    rfl
  · intro hs hH hesc hg
    have hfg : fetchWithTimeout get = .failure (.err "AbortError" "This operation was aborted") := by
      unfold fetchWithTimeout
      rw [if_pos hg]
    simp [checkUrl, hH, hesc, hfg, errorResult]

/-- Witness for C7: a HEAD request that takes exactly the timeout is
aborted and reported as "timeout". -/
theorem C7_timeout_reason_witness :
    checkUrl ⟨10000, .success 200⟩ ⟨0, .success 200⟩ = ⟨false, some "timeout"⟩ :=
  (C7_timeout_reason ⟨10000, .success 200⟩ ⟨0, .success 200⟩).1 (by decide)

/-!
## C5: unparseable, non-http(s) and localhost targets are silently dropped
-/

/-- C5: a link target that fails to parse, has a scheme other than
`http`/`https`, or has host `localhost` is mapped to `none` by
`toExternalHttpUrl` (a silent drop, not an error); consequently every
URL in the extracted link set is the serialization of a parsed
`http(s)`, non-`localhost` URL, and relative links, `mailto:` links and
`localhost` links are never checked. -/
theorem C5_invalid_targets_dropped :
    (∀ raw : List Char, urlParse (trimChars raw) = none → toExternalHttpUrl raw = none) ∧
    (∀ raw pu, urlParse (trimChars raw) = some pu →
      protocolOf pu ≠ "http:".toList → protocolOf pu ≠ "https:".toList →
      toExternalHttpUrl raw = none) ∧
    (∀ raw pu, urlParse (trimChars raw) = some pu → hostnameOf pu = "localhost".toList →
      toExternalHttpUrl raw = none) ∧
    (∀ (content : List Char) (p : List Char × Nat), p ∈ collectFileLinks content →
      ∃ pu, (protocolOf pu = "http:".toList ∨ protocolOf pu = "https:".toList) ∧
        hostnameOf pu ≠ "localhost".toList ∧ p.1 = urlToString pu) ∧
    (toExternalHttpUrl "/docs/page".toList = none ∧
      toExternalHttpUrl "mailto:user@example.com".toList = none ∧
      toExternalHttpUrl "http://localhost/x".toList = none) := by
  refine ⟨?_, ?_, ?_, ?_, by decide, by decide, by decide⟩
  · intro raw h
    simp [toExternalHttpUrl, h]
  · intro raw pu hp h1 h2
    by_cases he : trimChars raw = []
    · simp [toExternalHttpUrl, he]
    · simp only [toExternalHttpUrl, if_neg he, hp]
      have : (if protocolOf pu ≠ "http:".toList ∧ protocolOf pu ≠ "https:".toList then none
          else if hostnameOf pu = "localhost".toList then none
          else some (urlToString pu)) = (none : Option (List Char)) := by
        rw [if_pos ⟨h1, h2⟩]
      exact this
  · intro raw pu hp hh
    simp [toExternalHttpUrl, hp, hh]
  · intro content p h
    obtain ⟨raw, hx, _⟩ := mem_collectFileLinks h
    obtain ⟨pu, _, hpr, hh, he⟩ := toExternalHttpUrl_some hx
    exact ⟨pu, hpr, hh, he⟩

/-- Witness for C5: the three concrete excluded targets, and a concrete
extracted link whose URL is a serialized external `http(s)` URL. -/
theorem C5_invalid_targets_dropped_witness :
    toExternalHttpUrl "/docs/page".toList = none ∧
    toExternalHttpUrl "mailto:user@example.com".toList = none ∧
    toExternalHttpUrl "http://localhost/x".toList = none ∧
    (∃ pu, (protocolOf pu = "http:".toList ∨ protocolOf pu = "https:".toList) ∧
      hostnameOf pu ≠ "localhost".toList ∧
      (("https://a.com/x".toList, 1) : List Char × Nat).1 = urlToString pu) :=
  ⟨C5_invalid_targets_dropped.1 "/docs/page".toList (by decide),
   C5_invalid_targets_dropped.2.1 "mailto:user@example.com".toList
     (.nonspecial "mailto".toList "user@example.com".toList) (by decide) (by decide) (by decide),
   C5_invalid_targets_dropped.2.2.1 "http://localhost/x".toList
     (.special "http".toList "localhost".toList none "/x".toList none none)
     (by decide) (by decide),
   C5_invalid_targets_dropped.2.2.2.1 "<https://a.com/x>".toList
     ("https://a.com/x".toList, 1) (by decide)⟩

/-!
## C4: image references and image URLs are never extracted
-/

/-- A markdown-link match consumes at least one character. -/
theorem mdLinkMatchAt_pos {s cap : List Char} {len : Nat}
    (h : mdLinkMatchAt s = some (cap, len)) : 1 ≤ len := by
  unfold mdLinkMatchAt at h
  split at h
  · rename_i rest
    dsimp only at h
    split at h
    · rename_i rest2 heq
      split at h
      · exact absurd h (by simp)
      · split at h
        · have hlen := congrArg Prod.snd (Option.some.inj h)
          simp at hlen
          omega
        · exact absurd h (by simp)
    · exact absurd h (by simp)
  · exact absurd h (by simp)

/-- Unfolding equation of the markdown scanner on a non-empty document. -/
theorem mdScanAux_succ_cons (fuel : Nat) (prev : Option Char) (c : Char) (cs : List Char)
    (i : Nat) :
    mdScanAux (fuel + 1) prev (c :: cs) i =
      if c = '[' ∧ prev ≠ some '!' then
        match mdLinkMatchAt (c :: cs) with
        | some (cap, len) =>
          (cap, i) :: mdScanAux fuel ((c :: cs).drop (len - 1)).head? ((c :: cs).drop len) (i + len)
        | none => mdScanAux fuel (some c) cs (i + 1)
      else mdScanAux fuel (some c) cs (i + 1) := rfl

/-- The character before an index, for the `(?<!!)` lookbehind (`none`
at index 0). -/
def prevAt (orig : List Char) (i : Nat) : Option Char :=
  if i = 0 then none else orig[i - 1]?

/-- Lookbehind invariant of the markdown-link scanner: every recorded
match starts at an index whose preceding character is not `!`. -/
theorem mdScanAux_lookbehind : ∀ (fuel : Nat) (orig : List Char) (i : Nat)
    (cap : List Char) (j : Nat),
    (cap, j) ∈ mdScanAux fuel (prevAt orig i) (orig.drop i) i →
    j = 0 ∨ orig[j - 1]? ≠ some '!' := by
  intro fuel
  induction fuel with
  | zero => intro orig i cap j h; exact absurd h (by simp [mdScanAux])
  | succ fuel ih =>
    intro orig i cap j h
    cases hs : orig.drop i with
    | nil => rw [hs] at h; exact absurd h (by simp [mdScanAux])
    | cons c cs =>
      rw [hs, mdScanAux_succ_cons] at h
      have hcs : cs = orig.drop (i + 1) := by
        have := List.drop_drop 1 i orig
        rw [hs] at this
        exact this
      have hprev : some c = prevAt orig (i + 1) := by
        unfold prevAt
        rw [if_neg (Nat.succ_ne_zero i)]
        have := List.head?_drop orig i
        rw [hs] at this
        simpa using this
      by_cases hc : c = '[' ∧ prevAt orig i ≠ some '!'
      · rw [if_pos hc] at h
        cases hm : mdLinkMatchAt (c :: cs) with
        | none =>
          simp only [hm] at h
          rw [hcs, hprev] at h
          exact ih orig (i + 1) cap j h
        | some m =>
          obtain ⟨capm, len⟩ := m
          simp only [hm] at h
          have hlen := mdLinkMatchAt_pos hm
          rcases List.mem_cons.mp h with h1 | h1
          · rw [Prod.mk.injEq] at h1
            obtain ⟨hcap, hj⟩ := h1
            by_cases hi : i = 0
            · exact Or.inl (by omega)
            · right
              have := hc.2
              unfold prevAt at this
              rw [if_neg hi] at this
              simp only [hj]
              exact this
          · have hdd : (c :: cs).drop len = orig.drop (i + len) := by
              have := List.drop_drop len i orig
              rw [hs] at this
              exact this
            have hpp : ((c :: cs).drop (len - 1)).head? = prevAt orig (i + len) := by
              have h1' := List.drop_drop (len - 1) i orig
              rw [hs] at h1'
              have h2' : i + (len - 1) = i + len - 1 := by omega
              unfold prevAt
              rw [if_neg (by omega), h1', List.head?_drop, h2']
            rw [hdd, hpp] at h1
            exact ih orig (i + len) cap j h1
      · rw [if_neg hc] at h
        rw [hcs, hprev] at h
        exact ih orig (i + 1) cap j h

/-- C4: a markdown image reference `![alt](url)` never contributes an
extracted link (the scanner records no match whose `[` is immediately
preceded by `!`); every URL in the extracted set has `isImageUrl`
false, in every syntax; a URL whose parsed path (query string and
fragment stripped) ends in a recognized image extension is classified
an image; in particular `https://x.com/a.png?x=1` is an image, and the
image document `![alt](https://x.com/page)` contributes no link. -/
theorem C4_image_references_skipped :
    (∀ (orig cap : List Char) (j : Nat), (cap, j) ∈ mdLinkMatches orig →
      j = 0 ∨ orig[j - 1]? ≠ some '!') ∧
    (∀ (content : List Char) (p : List Char × Nat), p ∈ collectFileLinks content →
      isImageUrl p.1 = false) ∧
    (∀ (u : List Char) (pu : ParsedUrl), urlParse (stripQueryAndHash u) = some pu →
      ((extname (pathnameOf pu)).map lowerChar) ∈ IMAGE_EXTENSIONS → isImageUrl u = true) ∧
    (collectFileLinks "![alt](https://x.com/page)".toList = [] ∧
      isImageUrl "https://x.com/a.png?x=1".toList = true) := by
  refine ⟨?_, ?_, ?_, by decide, by decide⟩
  · intro orig cap j h
    have h' : (cap, j) ∈ mdScanAux orig.length (prevAt orig 0) (orig.drop 0) 0 := by
      simpa [prevAt, mdLinkMatches] using h
    exact mdScanAux_lookbehind orig.length orig 0 cap j h'
  · intro content p h
    obtain ⟨raw, _, him⟩ := mem_collectFileLinks h
    exact him
  · intro u pu hp hext
    simp only [isImageUrl, hp]
    simpa using hext

/-- Witness for C4 at concrete inputs: a recorded markdown-link match
not preceded by `!`, a non-image extracted link, and the image query
URL. -/
theorem C4_image_references_skipped_witness :
    ((2 : Nat) = 0 ∨ ("x [a](https://e.com/p)".toList)[2 - 1]? ≠ some '!') ∧
    isImageUrl ("https://a.com/x".toList) = false ∧
    isImageUrl "https://x.com/a.png?x=1".toList = true :=
  ⟨C4_image_references_skipped.1 "x [a](https://e.com/p)".toList "https://e.com/p".toList 2
     (by decide),
   C4_image_references_skipped.2.1 "<https://a.com/x>".toList ("https://a.com/x".toList, 1)
     (by decide),
   C4_image_references_skipped.2.2.1 "https://x.com/a.png?x=1".toList
     (.special "https".toList "x.com".toList none "/a.png".toList none none)
     (by decide) (by decide)⟩

/-!
## C3: one record per unique URL, occurrences in encounter order
-/

/-- The flattened list of (URL, occurrence) pairs of a corpus, in the
order `main` encounters them: files in scan order, and within a file
the order `collectFileLinks` yields. -/
def flatLinks (files : List (String × List Char)) : List (List Char × LinkOccurrence) :=
  files.flatMap fun fc => (collectFileLinks fc.2).map fun l => (l.1, (fc.1, l.2))

/-- The occurrences of one URL among a pair list, in order. -/
def occsOf (u : List Char) (links : List (List Char × LinkOccurrence)) : List LinkOccurrence :=
  links.filterMap fun l => if l.1 = u then some l.2 else none

/-- Folding `addOcc` over a pair list. -/
def foldAdd (links : List (List Char × LinkOccurrence))
    (m : List (List Char × List LinkOccurrence)) : List (List Char × List LinkOccurrence) :=
  links.foldl (fun acc l => addOcc acc l.1 l.2) m

/-- `addOcc` updates exactly the touched key. -/
theorem addOcc_lookup (m : List (List Char × List LinkOccurrence)) (u : List Char)
    (o : LinkOccurrence) (v : List Char) :
    (addOcc m u o).lookup v =
      if v = u then some (((m.lookup u).getD []) ++ [o]) else m.lookup v := by
  induction m with
  | nil =>
    by_cases hv : v = u
    · subst hv; simp [addOcc, List.lookup]
    · simp [addOcc, List.lookup, hv, beq_eq_false_iff_ne.mpr hv]
  | cons kv rest ih =>
    obtain ⟨k, os⟩ := kv
    by_cases hk : k = u
    · subst hk
      by_cases hv : v = k
      · subst hv; simp [addOcc, List.lookup]
      · simp [addOcc, List.lookup, hv, beq_eq_false_iff_ne.mpr hv]
    · by_cases hv : v = u
      · subst hv
        simp [addOcc, List.lookup, hk, ih,
          beq_eq_false_iff_ne.mpr (Ne.symm hk)]
      · by_cases hvk : v = k
        · subst hvk; simp [addOcc, List.lookup, hk, beq_eq_false_iff_ne.mpr hk]
        · simp [addOcc, List.lookup, hk, hv, hvk, ih,
            beq_eq_false_iff_ne.mpr hvk]

/-- `addOcc` appends the key exactly when it is new. -/
theorem addOcc_keys (m : List (List Char × List LinkOccurrence)) (u : List Char)
    (o : LinkOccurrence) :
    (addOcc m u o).map Prod.fst =
      if u ∈ m.map Prod.fst then m.map Prod.fst else m.map Prod.fst ++ [u] := by
  induction m with
  | nil => simp [addOcc]
  | cons kv rest ih =>
    obtain ⟨k, os⟩ := kv
    by_cases hk : k = u
    · subst hk; simp [addOcc]
    · by_cases hm : u ∈ rest.map Prod.fst <;>
        simp [addOcc, hk, hm, ih, Ne.symm hk]

/-- `addOcc` preserves key distinctness. -/
theorem addOcc_nodup {m : List (List Char × List LinkOccurrence)} {u : List Char}
    {o : LinkOccurrence} (h : (m.map Prod.fst).Nodup) :
    ((addOcc m u o).map Prod.fst).Nodup := by
  rw [addOcc_keys]
  by_cases hm : u ∈ m.map Prod.fst
  · rw [if_pos hm]; exact h
  · rw [if_neg hm]
    rw [List.nodup_append]
    refine ⟨h, List.nodup_singleton u, ?_⟩
    intro a ha hb
    simp at hb
    subst hb
    exact hm ha

/-- Folding a pair list in: every key's list receives exactly its
occurrences, in encounter order. -/
theorem foldAdd_lookup (links : List (List Char × LinkOccurrence)) :
    ∀ (m : List (List Char × List LinkOccurrence)) (u : List Char),
    (foldAdd links m).lookup u =
      match m.lookup u with
      | some os => some (os ++ occsOf u links)
      | none => if u ∈ links.map Prod.fst then some (occsOf u links) else none := by
  induction links with
  | nil =>
    intro m u
    cases hm : m.lookup u <;> simp [foldAdd, occsOf, hm]
  | cons l ls ih =>
    intro m u
    have hstep : foldAdd (l :: ls) m = foldAdd ls (addOcc m l.1 l.2) := rfl
    rw [hstep, ih]
    rw [addOcc_lookup]
    by_cases hu : u = l.1
    · cases hm : m.lookup l.1 with
      | some os => simp [if_pos hu, hu, hm, occsOf, List.filterMap_cons]
      | none => simp [if_pos hu, hu, hm, occsOf, List.filterMap_cons]
    · have hne : l.1 ≠ u := fun h => hu h.symm
      have hocc : occsOf u (l :: ls) = occsOf u ls := by
        simp [occsOf, List.filterMap_cons, hne]
      cases hm : m.lookup u with
      | some os => simp [if_neg hu, hm, hocc]
      | none =>
        simp only [if_neg hu, hm, hocc, List.map_cons]
        by_cases hmem : u ∈ List.map Prod.fst ls
        · rw [if_pos hmem, if_pos (List.mem_cons_of_mem _ hmem)]
        · rw [if_neg hmem, if_neg (by simp [List.mem_cons, hu, hmem])]

/-- Folding a pair list in preserves key distinctness. -/
theorem foldAdd_nodup (links : List (List Char × LinkOccurrence)) :
    ∀ {m : List (List Char × List LinkOccurrence)}, (m.map Prod.fst).Nodup →
    ((foldAdd links m).map Prod.fst).Nodup := by
  induction links with
  | nil => intro m h; exact h
  | cons l ls ih => intro m h; exact ih (addOcc_nodup h)

/-- `buildRecords` is the fold of the flattened corpus. -/
theorem buildRecords_eq_foldAdd (files : List (String × List Char)) :
    buildRecords files = foldAdd (flatLinks files) [] := by
  suffices h : ∀ (fs : List (String × List Char)) (m : List (List Char × List LinkOccurrence)),
      fs.foldl (fun acc fc => recordFile acc fc.1 fc.2) m = foldAdd (flatLinks fs) m by
    exact h files []
  intro fs
  induction fs with
  | nil => intro m; rfl
  | cons fc rest ih =>
    intro m
    have h1 : recordFile m fc.1 fc.2 =
        foldAdd ((collectFileLinks fc.2).map fun l => (l.1, (fc.1, l.2))) m := by
      unfold recordFile foldAdd
      rw [List.foldl_map]
    calc (fc :: rest).foldl (fun acc fc => recordFile acc fc.1 fc.2) m
        = rest.foldl (fun acc fc => recordFile acc fc.1 fc.2) (recordFile m fc.1 fc.2) := rfl
      _ = foldAdd (flatLinks rest) (recordFile m fc.1 fc.2) := ih _
      _ = foldAdd (flatLinks rest)
            (foldAdd ((collectFileLinks fc.2).map fun l => (l.1, (fc.1, l.2))) m) := by rw [h1]
      _ = foldAdd (flatLinks (fc :: rest)) m := by
            unfold foldAdd flatLinks
            rw [List.flatMap_cons, List.foldl_append]

/-- C3 (amended): the record map has exactly one record per unique URL
of the corpus, and the record of `u` lists exactly the occurrences of
`u`, in encounter order — file scan order and, within a file, the
order `collectFileLinks` emits (matcher by matcher); its length is the
number of occurrences of `u`. -/
theorem C3_one_record_per_url_encounter_order (files : List (String × List Char)) :
    ((buildRecords files).map Prod.fst).Nodup ∧
    (∀ u : List Char, (buildRecords files).lookup u =
      (if u ∈ (flatLinks files).map Prod.fst then some (occsOf u (flatLinks files)) else none)) ∧
    (∀ (u : List Char) (os : List LinkOccurrence), (buildRecords files).lookup u = some os →
      os.length = ((flatLinks files).map Prod.fst).count u) := by
  have hl : ∀ u : List Char, (buildRecords files).lookup u =
      (if u ∈ (flatLinks files).map Prod.fst then some (occsOf u (flatLinks files)) else none) := by
    intro u
    rw [buildRecords_eq_foldAdd, foldAdd_lookup]
    simp [List.lookup]
  refine ⟨?_, hl, ?_⟩
  · rw [buildRecords_eq_foldAdd]
    exact foldAdd_nodup (flatLinks files) (by simp)
  · intro u os h
    rw [hl u] at h
    by_cases hm : u ∈ (flatLinks files).map Prod.fst
    · rw [if_pos hm] at h
      have hos : os = occsOf u (flatLinks files) := (Option.some.inj h).symm
      subst hos
      unfold occsOf
      induction (flatLinks files) with
      | nil => simp
      | cons l ls ih2 =>
        by_cases hu : l.1 = u
        · simp [List.filterMap_cons, hu, List.count_cons, ih2]
        · simp [List.filterMap_cons, hu, List.count_cons, ih2, Ne.symm (fun h => hu h.symm)]
    · rw [if_neg hm] at h
      exact absurd h (by simp)

/-- Witness for C3 (amended) at a concrete corpus: a URL appearing in
two files has distinct record keys and an occurrence list of length 2
(the count of its occurrences). -/
theorem C3_one_record_per_url_encounter_order_witness :
    ((buildRecords [("f1", "[a](https://x.com/p)".toList),
        ("f2", "<https://x.com/p>".toList)]).map Prod.fst).Nodup ∧
    ([("f1", 1), ("f2", 1)] : List LinkOccurrence).length =
      ((flatLinks [("f1", "[a](https://x.com/p)".toList),
        ("f2", "<https://x.com/p>".toList)]).map Prod.fst).count "https://x.com/p".toList :=
  ⟨(C3_one_record_per_url_encounter_order
      [("f1", "[a](https://x.com/p)".toList), ("f2", "<https://x.com/p>".toList)]).1,
   (C3_one_record_per_url_encounter_order
      [("f1", "[a](https://x.com/p)".toList), ("f2", "<https://x.com/p>".toList)]).2.2
     "https://x.com/p".toList [("f1", 1), ("f2", 1)] (by decide)⟩

/-- Counterexample to C3 as stated: in the single file `f` with an
autolink to `https://a.com/x` on line 1 and a markdown link to the same
URL on line 2, the merged record lists the markdown occurrence (line 2)
before the autolink occurrence (line 1), because `collectFileLinks`
runs matcher by matcher — so the occurrence list is not ordered by
position within the file. -/
theorem C3_counterexample :
    buildRecords [("f", "<https://a.com/x>\n[t](https://a.com/x)".toList)] =
      [("https://a.com/x".toList, [("f", 2), ("f", 1)])] ∧
    ¬ (((buildRecords [("f", "<https://a.com/x>\n[t](https://a.com/x)".toList)]).lookup
        "https://a.com/x".toList).getD []).Pairwise
      (fun a b : LinkOccurrence => a.1 ≠ b.1 ∨ a.2 ≤ b.2) := by
  constructor
  · decide
  · decide

/-!
## C2: fenced code blocks are neutralized and line numbers preserved
-/

/-- The total line count of a document, `content.split("\n").length`. -/
def totalLines (c : List Char) : Nat := countNl c + 1

/-- A fragment that creates no triple backtick, not even against a
following fence: its concatenation with two backticks has none. -/
def blockSafe (x : List Char) : Prop := splitTriple (x ++ [tick, tick]) = none

/-- A successful split decomposes the document around a fence. -/
theorem splitTriple_join : ∀ (s p r : List Char), splitTriple s = some (p, r) →
    s = p ++ [tick, tick, tick] ++ r := by
  intro s
  induction s with
  | nil => intro p r h; exact absurd h (by simp [splitTriple])
  | cons c cs ih =>
    intro p r h
    unfold splitTriple at h
    by_cases hc : c = tick ∧ cs.take 2 = [tick, tick]
    · rw [if_pos hc] at h
      have hpr := Option.some.inj h
      rw [Prod.mk.injEq] at hpr
      obtain ⟨hp, hr⟩ := hpr
      rw [← hp, ← hr, hc.1]
      have hcs : cs = [tick, tick] ++ cs.drop 2 := by
        conv_lhs => rw [← List.take_append_drop 2 cs]
        rw [hc.2]
      conv_lhs => rw [hcs]
      rfl
    · rw [if_neg hc] at h
      cases hsp : splitTriple cs with
      | none => rw [hsp] at h; exact absurd h (by simp)
      | some pr =>
        obtain ⟨p1, r1⟩ := pr
        rw [hsp] at h
        have h' : (some (c :: p1, r1) : Option (List Char × List Char)) = some (p, r) := h
        have hpr := Option.some.inj h'
        rw [Prod.mk.injEq] at hpr
        obtain ⟨hp, hr⟩ := hpr
        rw [← hp, ← hr, ih p1 r1 hsp]
        rfl

/-- A found code block decomposes the document. -/
theorem findCodeBlock_join (s p b r : List Char) (h : findCodeBlock s = some (p, b, r)) :
    s = p ++ [tick, tick, tick] ++ b ++ [tick, tick, tick] ++ r := by
  unfold findCodeBlock at h
  cases h1 : splitTriple s with
  | none => rw [h1] at h; exact absurd h (by simp)
  | some pr =>
    obtain ⟨p1, rest⟩ := pr
    rw [h1] at h
    have h' : (match splitTriple rest with
        | none => none
        | some (b, r) => some (p1, b, r)) = some (p, b, r) := h
    cases h2 : splitTriple rest with
    | none => rw [h2] at h'; exact absurd h' (by simp)
    | some br =>
      obtain ⟨b1, r1⟩ := br
      rw [h2] at h'
      have h'' : (some (p1, b1, r1) : Option (List Char × List Char × List Char)) =
          some (p, b, r) := h'
      have hpr := Option.some.inj h''
      rw [Prod.mk.injEq, Prod.mk.injEq] at hpr
      obtain ⟨hp, hb, hr⟩ := hpr
      rw [← hp, ← hb, ← hr]
      rw [splitTriple_join s p1 rest h1, splitTriple_join rest b1 r1 h2]
      simp [List.append_assoc]

/-- Length accounting of a found code block. -/
theorem findCodeBlock_len (s p b r : List Char) (h : findCodeBlock s = some (p, b, r)) :
    s.length = p.length + b.length + r.length + 6 := by
  rw [findCodeBlock_join s p b r h]
  simp [List.length_append]
  omega

/-- One-step unfolding of `stripAux`. -/
theorem stripAux_succ (f : Nat) (s : List Char) :
    stripAux (f + 1) s =
      (match findCodeBlock s with
        | none => s
        | some (p, b, r) =>
          p ++ List.replicate (countNl b) (Char.ofNat 10) ++ stripAux f r) := rfl

/-- `stripAux` ignores the exact fuel once it covers the length. -/
theorem stripAux_congr : ∀ (n1 : Nat) (s : List Char) (n2 : Nat),
    s.length ≤ n1 → s.length ≤ n2 → stripAux n1 s = stripAux n2 s := by
  have hnil : ∀ n : Nat, stripAux n [] = [] := by
    intro n
    cases n with
    | zero => rfl
    | succ m => rfl
  intro n1
  induction n1 with
  | zero =>
    intro s n2 h1 _
    have hs : s = [] := List.length_eq_zero.mp (Nat.le_zero.mp h1)
    rw [hs, hnil, hnil]
  | succ m ih =>
    intro s n2 h1 h2
    cases n2 with
    | zero =>
      have hs : s = [] := List.length_eq_zero.mp (Nat.le_zero.mp h2)
      rw [hs, hnil, hnil]
    | succ k =>
      show stripAux (m + 1) s = stripAux (k + 1) s
      unfold stripAux
      cases hf : findCodeBlock s with
      | none => rfl
      | some pbr =>
        obtain ⟨p, b, r⟩ := pbr
        simp only [hf]
        have hlen := findCodeBlock_len s p b r hf
        rw [ih r k (by omega) (by omega)]

/-- The canonical unfolding of `stripCodeBlocks`. -/
theorem strip_eq (s : List Char) : stripCodeBlocks s =
    (match findCodeBlock s with
      | none => s
      | some (p, b, r) =>
        p ++ List.replicate (countNl b) (Char.ofNat 10) ++ stripCodeBlocks r) := by
  cases hf : findCodeBlock s with
  | none =>
    simp only [hf]
    unfold stripCodeBlocks
    cases hn : s.length with
    | zero => rfl
    | succ m =>
      rw [stripAux_succ]
      simp only [hf]
  | some pbr =>
    obtain ⟨p, b, r⟩ := pbr
    simp only [hf]
    have hlen := findCodeBlock_len s p b r hf
    unfold stripCodeBlocks
    have h1 : s.length = (p.length + b.length + r.length + 5) + 1 := by omega
    rw [h1, stripAux_succ]
    simp only [hf]
    rw [stripAux_congr (p.length + b.length + r.length + 5) r r.length (by omega) (le_refl _)]

/-- Stripping preserves the number of newline characters. -/
theorem countNl_strip (s : List Char) : countNl (stripCodeBlocks s) = countNl s := by
  have httt : ([tick, tick, tick] : List Char).count (Char.ofNat 10) = 0 := by decide
  suffices h : ∀ (n : Nat) (s : List Char), s.length ≤ n →
      countNl (stripCodeBlocks s) = countNl s from h s.length s (le_refl _)
  intro n
  induction n with
  | zero =>
    intro s h1
    have hs : s = [] := List.length_eq_zero.mp (Nat.le_zero.mp h1)
    rw [hs]
    rfl
  | succ m ih =>
    intro s h1
    rw [strip_eq]
    cases hf : findCodeBlock s with
    | none => simp only [hf]
    | some pbr =>
      obtain ⟨p, b, r⟩ := pbr
      simp only [hf]
      have hlen := findCodeBlock_len s p b r hf
      have hjoin := findCodeBlock_join s p b r hf
      rw [hjoin]
      unfold countNl
      rw [List.count_append, List.count_append, List.count_replicate_self]
      rw [List.count_append, List.count_append, List.count_append, List.count_append]
      have hr := ih r (by omega)
      unfold countNl at hr
      rw [hr, httt]
      omega

/-- Prepending a fence-free fragment and an opening fence: the split
finds exactly that fence. -/
theorem splitTriple_append : ∀ (p x : List Char), blockSafe p →
    splitTriple (p ++ [tick, tick, tick] ++ x) = some (p, x) := by
  intro p
  induction p with
  | nil =>
    intro x _
    show splitTriple (tick :: tick :: tick :: x) = some ([], x)
    unfold splitTriple
    rw [if_pos ⟨rfl, by simp⟩]
    simp
  | cons c p ih =>
    intro x hp
    unfold blockSafe at hp
    have hp' : splitTriple (c :: (p ++ [tick, tick])) = none := hp
    unfold splitTriple at hp'
    have hcond : ¬(c = tick ∧ (p ++ [tick, tick]).take 2 = [tick, tick]) ∧
        splitTriple (p ++ [tick, tick]) = none := by
      by_cases hc : c = tick ∧ (p ++ [tick, tick]).take 2 = [tick, tick]
      · rw [if_pos hc] at hp'
        exact absurd hp' (by simp)
      · rw [if_neg hc] at hp'
        cases hin : splitTriple (p ++ [tick, tick]) with
        | none => exact ⟨hc, rfl⟩
        | some pr =>
          obtain ⟨a, b⟩ := pr
          rw [hin] at hp'
          exact absurd hp' (by simp)
    show splitTriple (c :: (p ++ [tick, tick, tick] ++ x)) = some (c :: p, x)
    unfold splitTriple
    rw [if_neg ?cond]
    · rw [ih x hcond.2]
    case cond =>
      rintro ⟨hct, htk⟩
      apply hcond.1
      refine ⟨hct, ?_⟩
      cases p with
      | nil => simp
      | cons d q =>
        cases q with
        | nil =>
          simp at htk ⊢
          exact htk
        | cons e q2 =>
          simp at htk ⊢
          exact htk

/-- A document assembled around a fence-free prefix and body: the block
found is exactly that block. -/
theorem findCodeBlock_shape (p b r : List Char) (hp : blockSafe p) (hb : blockSafe b) :
    findCodeBlock (p ++ [tick, tick, tick] ++ b ++ [tick, tick, tick] ++ r) =
      some (p, b, r) := by
  have h1 : p ++ [tick, tick, tick] ++ b ++ [tick, tick, tick] ++ r =
      p ++ [tick, tick, tick] ++ (b ++ [tick, tick, tick] ++ r) := by
    simp [List.append_assoc]
  rw [h1]
  unfold findCodeBlock
  simp only [splitTriple_append p (b ++ [tick, tick, tick] ++ r) hp,
    splitTriple_append b r hb]

/-- Such a block is neutralized to its own newlines. -/
theorem strip_shape (p b r : List Char) (hp : blockSafe p) (hb : blockSafe b) :
    stripCodeBlocks (p ++ [tick, tick, tick] ++ b ++ [tick, tick, tick] ++ r) =
      p ++ List.replicate (countNl b) (Char.ofNat 10) ++ stripCodeBlocks r := by
  rw [strip_eq]
  simp only [findCodeBlock_shape p b r hp hb]

/-- One-step unfolding of `keptAux`. -/
theorem keptAux_succ (f : Nat) (s : List Char) (i : Nat) :
    keptAux (f + 1) s i =
      (match findCodeBlock s with
        | none => true
        | some (p, b, r) =>
          decide (i < p.length) ||
            (decide (p.length + countNl b ≤ i) &&
              keptAux f r (i - (p.length + countNl b)))) := rfl

/-- One-step unfolding of `origAux`. -/
theorem origAux_succ (f : Nat) (s : List Char) (i : Nat) :
    origAux (f + 1) s i =
      (match findCodeBlock s with
        | none => i
        | some (p, b, r) =>
          if i < p.length then i
          else p.length + 6 + b.length + origAux f r (i - (p.length + countNl b))) := rfl

/-- `keptAux` ignores the exact fuel once it covers the length. -/
theorem keptAux_congr : ∀ (n1 : Nat) (s : List Char) (i : Nat) (n2 : Nat),
    s.length ≤ n1 → s.length ≤ n2 → keptAux n1 s i = keptAux n2 s i := by
  have hnil : ∀ (n : Nat) (i : Nat), keptAux n [] i = true := by
    intro n i
    cases n with
    | zero => rfl
    | succ m => rfl
  intro n1
  induction n1 with
  | zero =>
    intro s i n2 h1 _
    have hs : s = [] := List.length_eq_zero.mp (Nat.le_zero.mp h1)
    rw [hs, hnil, hnil]
  | succ m ih =>
    intro s i n2 h1 h2
    cases n2 with
    | zero =>
      have hs : s = [] := List.length_eq_zero.mp (Nat.le_zero.mp h2)
      rw [hs, hnil, hnil]
    | succ k =>
      rw [keptAux_succ, keptAux_succ]
      cases hf : findCodeBlock s with
      | none => rfl
      | some pbr =>
        obtain ⟨p, b, r⟩ := pbr
        simp only [hf]
        have hlen := findCodeBlock_len s p b r hf
        rw [ih r (i - (p.length + countNl b)) k (by omega) (by omega)]

/-- `origAux` ignores the exact fuel once it covers the length. -/
theorem origAux_congr : ∀ (n1 : Nat) (s : List Char) (i : Nat) (n2 : Nat),
    s.length ≤ n1 → s.length ≤ n2 → origAux n1 s i = origAux n2 s i := by
  have hnil : ∀ (n : Nat) (i : Nat), origAux n [] i = i := by
    intro n i
    cases n with
    | zero => rfl
    | succ m => rfl
  intro n1
  induction n1 with
  | zero =>
    intro s i n2 h1 _
    have hs : s = [] := List.length_eq_zero.mp (Nat.le_zero.mp h1)
    rw [hs, hnil, hnil]
  | succ m ih =>
    intro s i n2 h1 h2
    cases n2 with
    | zero =>
      have hs : s = [] := List.length_eq_zero.mp (Nat.le_zero.mp h2)
      rw [hs, hnil, hnil]
    | succ k =>
      rw [origAux_succ, origAux_succ]
      cases hf : findCodeBlock s with
      | none => rfl
      | some pbr =>
        obtain ⟨p, b, r⟩ := pbr
        simp only [hf]
        have hlen := findCodeBlock_len s p b r hf
        rw [ih r (i - (p.length + countNl b)) k (by omega) (by omega)]

/-- The canonical unfolding of `keptIndex`. -/
theorem kept_eq (s : List Char) (i : Nat) : keptIndex s i =
    (match findCodeBlock s with
      | none => true
      | some (p, b, r) =>
        decide (i < p.length) ||
          (decide (p.length + countNl b ≤ i) &&
            keptIndex r (i - (p.length + countNl b)))) := by
  cases hf : findCodeBlock s with
  | none =>
    simp only [hf]
    unfold keptIndex
    cases hn : s.length with
    | zero => rfl
    | succ m =>
      rw [keptAux_succ]
      simp only [hf]
  | some pbr =>
    obtain ⟨p, b, r⟩ := pbr
    simp only [hf]
    have hlen := findCodeBlock_len s p b r hf
    unfold keptIndex
    have h1 : s.length = (p.length + b.length + r.length + 5) + 1 := by omega
    rw [h1, keptAux_succ]
    simp only [hf]
    rw [keptAux_congr (p.length + b.length + r.length + 5) r _ r.length (by omega) (le_refl _)]

/-- The canonical unfolding of `origIndex`. -/
theorem orig_eq (s : List Char) (i : Nat) : origIndex s i =
    (match findCodeBlock s with
      | none => i
      | some (p, b, r) =>
        if i < p.length then i
        else p.length + 6 + b.length + origIndex r (i - (p.length + countNl b))) := by
  cases hf : findCodeBlock s with
  | none =>
    simp only [hf]
    unfold origIndex
    cases hn : s.length with
    | zero => rfl
    | succ m =>
      rw [origAux_succ]
      simp only [hf]
  | some pbr =>
    obtain ⟨p, b, r⟩ := pbr
    simp only [hf]
    have hlen := findCodeBlock_len s p b r hf
    unfold origIndex
    have h1 : s.length = (p.length + b.length + r.length + 5) + 1 := by omega
    rw [h1, origAux_succ]
    simp only [hf]
    rw [origAux_congr (p.length + b.length + r.length + 5) r _ r.length (by omega) (le_refl _)]

/-- Line number at an offset beyond a prefix: the prefix contributes
its newlines. -/
theorem lineNumberAt_append (x y : List Char) (k : Nat) :
    lineNumberAt (x ++ y) (x.length + k) = countNl x + lineNumberAt y k := by
  unfold lineNumberAt countNl
  rw [List.take_append k, List.count_append]
  omega

/-- Line numbers at kept indices of the stripped document agree with
the original document at the corresponding index. -/
theorem lineNumber_correspond (s : List Char) (i : Nat) (hk : keptIndex s i = true) :
    lineNumberAt (stripCodeBlocks s) i = lineNumberAt s (origIndex s i) := by
  have httt : ([tick, tick, tick] : List Char).count (Char.ofNat 10) = 0 := by decide
  suffices h : ∀ (n : Nat) (s : List Char) (i : Nat), s.length ≤ n → keptIndex s i = true →
      lineNumberAt (stripCodeBlocks s) i = lineNumberAt s (origIndex s i) from
    h s.length s i (le_refl _) hk
  clear hk
  intro n
  induction n with
  | zero =>
    intro s i h1 _
    have hs : s = [] := List.length_eq_zero.mp (Nat.le_zero.mp h1)
    rw [hs]
    rfl
  | succ m ih =>
    intro s i h1 hk
    rw [kept_eq] at hk
    rw [strip_eq, orig_eq]
    cases hf : findCodeBlock s with
    | none => simp only [hf] at hk ⊢
    | some pbr =>
      obtain ⟨p, b, r⟩ := pbr
      simp only [hf] at hk ⊢
      have hlen := findCodeBlock_len s p b r hf
      have hjoin := findCodeBlock_join s p b r hf
      rw [Bool.or_eq_true] at hk
      rcases hk with hk1 | hk2
      · have hi : i < p.length := of_decide_eq_true hk1
        rw [if_pos hi]
        unfold lineNumberAt
        have e1 : ((p ++ List.replicate (countNl b) (Char.ofNat 10)) ++
            stripCodeBlocks r).take i = p.take i := by
          rw [List.take_append_of_le_length (by simp [List.length_append]; omega),
            List.take_append_of_le_length (by omega)]
        have e2 : s.take i = p.take i := by
          rw [hjoin]
          rw [List.take_append_of_le_length (by simp [List.length_append]; omega),
            List.take_append_of_le_length (by simp [List.length_append]; omega),
            List.take_append_of_le_length (by simp [List.length_append]; omega),
            List.take_append_of_le_length (by omega)]
        rw [e1, e2]
      · rw [Bool.and_eq_true] at hk2
        obtain ⟨hge, hkr⟩ := hk2
        have hge' : p.length + countNl b ≤ i := of_decide_eq_true hge
        rw [if_neg (by omega)]
        have hi : i = (p ++ List.replicate (countNl b) (Char.ofNat 10)).length +
            (i - (p.length + countNl b)) := by
          simp [List.length_append, List.length_replicate]
          omega
        conv_lhs => rw [hi]
        rw [lineNumberAt_append]
        rw [ih r (i - (p.length + countNl b)) (by omega) hkr]
        have hs2 : s = (p ++ [tick, tick, tick] ++ b ++ [tick, tick, tick]) ++ r := by
          rw [hjoin]
        have hplen : p.length + 6 + b.length =
            (p ++ [tick, tick, tick] ++ b ++ [tick, tick, tick]).length := by
          simp [List.length_append]
          omega
        rw [hs2, hplen, lineNumberAt_append]
        have hcount : countNl (p ++ List.replicate (countNl b) (Char.ofNat 10)) =
            countNl (p ++ [tick, tick, tick] ++ b ++ [tick, tick, tick]) := by
          unfold countNl
          rw [List.count_append, List.count_replicate_self, List.count_append,
            List.count_append, List.count_append, httt]
          omega
        rw [hcount]

/-- C2: code-block stripping preserves the total line count; a fenced
block is neutralized to blank lines before pattern matching, so the
content of a fenced code block never contributes an extracted link
(replacing the block body by any other body with the same newline
count leaves the extracted link set unchanged); and the computed
1-based line number of every kept index — in particular of every link
occurring after a code block — equals its line number in the original
text. -/
theorem C2_code_blocks_neutralized :
    (∀ s : List Char, totalLines (stripCodeBlocks s) = totalLines s) ∧
    (∀ p b r : List Char, blockSafe p → blockSafe b →
      stripCodeBlocks (p ++ [tick, tick, tick] ++ b ++ [tick, tick, tick] ++ r) =
        p ++ List.replicate (countNl b) (Char.ofNat 10) ++ stripCodeBlocks r) ∧
    (∀ p b b' r : List Char, blockSafe p → blockSafe b → blockSafe b' →
      countNl b' = countNl b →
      collectFileLinks (p ++ [tick, tick, tick] ++ b ++ [tick, tick, tick] ++ r) =
        collectFileLinks (p ++ [tick, tick, tick] ++ b' ++ [tick, tick, tick] ++ r)) ∧
    (∀ (s : List Char) (i : Nat), keptIndex s i = true →
      lineNumberAt (stripCodeBlocks s) i = lineNumberAt s (origIndex s i)) := by
  refine ⟨?_, ?_, ?_, ?_⟩
  · intro s
    unfold totalLines
    rw [countNl_strip]
  · intro p b r hp hb
    exact strip_shape p b r hp hb
  · intro p b b' r hp hb hb' hnl
    unfold collectFileLinks
    rw [strip_shape p b r hp hb, strip_shape p b' r hp hb', hnl]
  · intro s i hk
    exact lineNumber_correspond s i hk

/-- Witness for C2 at concrete inputs: a concrete block is neutralized
to its newline count, replacing its body with an equal-newline body
leaves the extracted links unchanged, and a kept index keeps its line
number. -/
theorem C2_code_blocks_neutralized_witness :
    totalLines (stripCodeBlocks "a\nb".toList) = totalLines "a\nb".toList ∧
    stripCodeBlocks ("a\n".toList ++ [tick, tick, tick] ++ "x\ny".toList ++
        [tick, tick, tick] ++ "w".toList) =
      "a\n".toList ++ List.replicate (countNl "x\ny".toList) (Char.ofNat 10) ++
        stripCodeBlocks "w".toList ∧
    collectFileLinks ("a\n".toList ++ [tick, tick, tick] ++ "x\ny".toList ++
        [tick, tick, tick] ++ "w".toList) =
      collectFileLinks ("a\n".toList ++ [tick, tick, tick] ++ "\nzz".toList ++
        [tick, tick, tick] ++ "w".toList) ∧
    lineNumberAt (stripCodeBlocks ("a\n".toList ++ [tick, tick, tick] ++ "x\ny".toList ++
        [tick, tick, tick] ++ "w".toList)) 0 =
      lineNumberAt ("a\n".toList ++ [tick, tick, tick] ++ "x\ny".toList ++
        [tick, tick, tick] ++ "w".toList)
        (origIndex ("a\n".toList ++ [tick, tick, tick] ++ "x\ny".toList ++
          [tick, tick, tick] ++ "w".toList) 0) :=
  ⟨C2_code_blocks_neutralized.1 "a\nb".toList,
   C2_code_blocks_neutralized.2.1 "a\n".toList "x\ny".toList "w".toList
     (by unfold blockSafe; decide) (by unfold blockSafe; decide),
   C2_code_blocks_neutralized.2.2.1 "a\n".toList "x\ny".toList "\nzz".toList "w".toList
     (by unfold blockSafe; decide) (by unfold blockSafe; decide)
     (by unfold blockSafe; decide) (by decide),
   C2_code_blocks_neutralized.2.2.2
     ("a\n".toList ++ [tick, tick, tick] ++ "x\ny".toList ++ [tick, tick, tick] ++ "w".toList)
     0 (by decide)⟩

/-- The pool invariant: the cursor never passes the end; the processed
log plus the in-flight items are exactly the claimed prefix of the item
list; every log entry carries its item's computed result; a done worker
holds nothing and can only exist once the cursor is exhausted; the
worker count is the initial one. -/
structure PoolInv (items : List α) (f : α → β) (limit : Nat) (s : PoolState α β) : Prop where
  cursor_le : s.cursor ≤ items.length
  balance : (s.log.map Prod.fst ++ s.workers.filterMap (fun ws => ws.busy)).Perm
    (items.take s.cursor)
  log_f : ∀ e ∈ s.log, e.2 = f e.1
  done_nobusy : ∀ ws ∈ s.workers, ws.done = true → ws.busy = none
  done_cursor : ∀ ws ∈ s.workers, ws.done = true → s.cursor = items.length
  wlen : s.workers.length = min limit items.length

/-- The initial pool satisfies the invariant. -/
theorem poolInit_inv (items : List α) (f : α → β) (limit : Nat) :
    PoolInv items f limit (poolInit α β items limit) := by
  have hfm : (List.replicate (min limit items.length)
      (⟨none, false⟩ : WorkerState α)).filterMap (fun ws => ws.busy) = [] :=
    List.filterMap_eq_nil_iff.mpr (by
      intro a ha
      rw [List.eq_of_mem_replicate ha])
  refine ⟨Nat.zero_le _, ?_, ?_, ?_, ?_, ?_⟩
  · simp [poolInit, hfm]
  · intro e he
    simp [poolInit] at he
  · intro ws hws hd
    rw [List.eq_of_mem_replicate hws] at hd
    exact absurd hd (by simp)
  · intro ws hws hd
    rw [List.eq_of_mem_replicate hws] at hd
    exact absurd hd (by simp)
  · simp [poolInit]

/-- One event-loop step preserves the invariant. -/
theorem poolStep_inv {items : List α} {f : α → β} {limit : Nat} {s : PoolState α β}
    (inv : PoolInv items f limit s) (w : Nat) :
    PoolInv items f limit (poolStep items f s w) := by
  unfold poolStep
  split
  · exact inv
  · rename_i ws hw
    have hwlt : w < s.workers.length := (List.getElem?_eq_some.mp hw).1
    have hwget : s.workers[w] = ws := (List.getElem?_eq_some.mp hw).2
    have hdecomp : s.workers = s.workers.take w ++ ws :: s.workers.drop (w + 1) := by
      have h1 := List.take_append_drop w s.workers
      rw [← List.get_drop_eq_drop s.workers w hwlt, hwget] at h1
      exact h1.symm
    have hset : ∀ v : WorkerState α,
        s.workers.set w v = s.workers.take w ++ v :: s.workers.drop (w + 1) :=
      fun v => List.set_eq_take_cons_drop v hwlt
    split
    · exact inv
    · rename_i hdone
      split
      · -- the worker finishes processing item `a`: log it, go idle
        rename_i a hbusy
        have hfmold : s.workers.filterMap (fun x => x.busy) =
            (s.workers.take w).filterMap (fun x => x.busy) ++
              a :: (s.workers.drop (w + 1)).filterMap (fun x => x.busy) := by
          conv_lhs => rw [hdecomp]
          simp [List.filterMap_append, List.filterMap_cons, hbusy]
        have hfmnew : (s.workers.set w ⟨none, false⟩).filterMap (fun x => x.busy) =
            (s.workers.take w).filterMap (fun x => x.busy) ++
              (s.workers.drop (w + 1)).filterMap (fun x => x.busy) := by
          rw [hset]
          simp [List.filterMap_append, List.filterMap_cons]
        have hbal := inv.balance
        rw [hfmold] at hbal
        refine ⟨inv.cursor_le, ?_, ?_, ?_, ?_, ?_⟩
        · show (((s.log ++ [(a, f a)]).map Prod.fst) ++
              (s.workers.set w ⟨none, false⟩).filterMap (fun x => x.busy)).Perm
            (items.take s.cursor)
          rw [hfmnew, List.map_append]
          simp only [List.map_cons, List.map_nil]
          have e1 : (s.log.map Prod.fst ++ [a]) ++
              ((s.workers.take w).filterMap (fun x => x.busy) ++
                (s.workers.drop (w + 1)).filterMap (fun x => x.busy)) =
              s.log.map Prod.fst ++
                (a :: ((s.workers.take w).filterMap (fun x => x.busy) ++
                  (s.workers.drop (w + 1)).filterMap (fun x => x.busy))) := by
            simp
          rw [e1]
          exact ((List.Perm.append_left _ List.perm_middle.symm).trans hbal)
        · intro e he
          rcases List.mem_append.mp he with h1 | h1
          · exact inv.log_f e h1
          · rw [List.mem_singleton.mp h1]
        · intro x hx hd
          rcases List.mem_or_eq_of_mem_set hx with h1 | h1
          · exact inv.done_nobusy x h1 hd
          · rw [h1]
        · intro x hx hd
          rcases List.mem_or_eq_of_mem_set hx with h1 | h1
          · exact inv.done_cursor x h1 hd
          · rw [h1] at hd
            exact absurd hd (by simp)
        · simpa using inv.wlen
      · -- the worker is idle: claim the next item or finish
        rename_i hbusy
        have hfmold : s.workers.filterMap (fun x => x.busy) =
            (s.workers.take w).filterMap (fun x => x.busy) ++
              (s.workers.drop (w + 1)).filterMap (fun x => x.busy) := by
          conv_lhs => rw [hdecomp]
          simp [List.filterMap_append, List.filterMap_cons, hbusy]
        have hbal := inv.balance
        rw [hfmold] at hbal
        split
        · -- claim items[cursor]
          rename_i hlt
          have hfmnew : (s.workers.set w ⟨some items[s.cursor], false⟩).filterMap
              (fun x => x.busy) =
              (s.workers.take w).filterMap (fun x => x.busy) ++
                items[s.cursor] :: (s.workers.drop (w + 1)).filterMap (fun x => x.busy) := by
            rw [hset]
            simp [List.filterMap_append, List.filterMap_cons]
          refine ⟨?_, ?_, inv.log_f, ?_, ?_, ?_⟩
          · show s.cursor + 1 ≤ items.length
            omega
          · show ((s.log.map Prod.fst) ++
                (s.workers.set w ⟨some items[s.cursor], false⟩).filterMap
                  (fun x => x.busy)).Perm (items.take (s.cursor + 1))
            rw [hfmnew]
            have htake : items.take (s.cursor + 1) = items.take s.cursor ++ [items[s.cursor]] := by
              rw [List.take_succ, List.getElem?_eq_getElem hlt]
              rfl
            rw [htake]
            refine ((List.Perm.append_left _ List.perm_middle).trans ?_)
            refine List.perm_middle.trans ?_
            exact ((hbal.cons items[s.cursor]).trans (List.perm_append_singleton _ _).symm)
          · intro x hx hd
            rcases List.mem_or_eq_of_mem_set hx with h1 | h1
            · exact inv.done_nobusy x h1 hd
            · rw [h1] at hd
              exact absurd hd (by simp)
          · intro x hx hd
            rcases List.mem_or_eq_of_mem_set hx with h1 | h1
            · exact absurd (inv.done_cursor x h1 hd) (by omega)
            · rw [h1] at hd
              exact absurd hd (by simp)
          · simpa using inv.wlen
        · -- cursor exhausted: the worker is done
          rename_i hge
          have hfmnew : (s.workers.set w ⟨none, true⟩).filterMap (fun x => x.busy) =
              (s.workers.take w).filterMap (fun x => x.busy) ++
                (s.workers.drop (w + 1)).filterMap (fun x => x.busy) := by
            rw [hset]
            simp [List.filterMap_append, List.filterMap_cons]
          have hcur : s.cursor = items.length := by
            have := inv.cursor_le
            omega
          refine ⟨inv.cursor_le, ?_, inv.log_f, ?_, ?_, ?_⟩
          · show ((s.log.map Prod.fst) ++
                (s.workers.set w ⟨none, true⟩).filterMap (fun x => x.busy)).Perm
              (items.take s.cursor)
            rw [hfmnew]
            exact hbal
          · intro x hx hd
            rcases List.mem_or_eq_of_mem_set hx with h1 | h1
            · exact inv.done_nobusy x h1 hd
            · rw [h1]
          · intro x hx hd
            exact hcur
          · simpa using inv.wlen

/-- The invariant holds after any schedule. -/
theorem poolRun_inv (items : List α) (f : α → β) (limit : Nat) (sched : List Nat) :
    PoolInv items f limit (poolRun items f limit sched) := by
  suffices h : ∀ (sc : List Nat) (s : PoolState α β), PoolInv items f limit s →
      PoolInv items f limit (sc.foldl (poolStep items f) s) by
    exact h sched _ (poolInit_inv items f limit)
  intro sc
  induction sc with
  | nil => intro s hs; exact hs
  | cons w ws ih => intro s hs; exact ih _ (poolStep_inv hs w)

/-- A pair list whose second components are computed from the first is
the map of its first components. -/
theorem log_shape (f : α → β) : ∀ (l : List (α × β)), (∀ e ∈ l, e.2 = f e.1) →
    l = (l.map Prod.fst).map (fun a => (a, f a)) := by
  intro l
  induction l with
  | nil => intro _; rfl
  | cons e es ih =>
    intro hf
    have he : e.2 = f e.1 := hf e (List.mem_cons_self e es)
    have ih2 := ih fun x hx => hf x (List.mem_cons_of_mem e hx)
    calc e :: es = (e.1, e.2) :: es := by rw [Prod.mk.eta]
      _ = (e.1, f e.1) :: es := by rw [he]
      _ = (e.1, f e.1) :: (es.map Prod.fst).map (fun a => (a, f a)) := by rw [← ih2]
      _ = ((e :: es).map Prod.fst).map (fun a => (a, f a)) := by simp

/-- C6: for any schedule under which the pool resolves (every worker
done) with concurrency limit at least 1, the log holds exactly one
entry per item (a permutation — nothing skipped, nothing duplicated),
each entry carrying the worker's computed result; consequently any
failure data collected from the log is, up to completion order, the
failure data of the whole item list. -/
theorem C6_pool_processes_each_item_once {α β : Type} (items : List α) (f : α → β)
    (limit : Nat) (sched : List Nat) (hl : 1 ≤ limit)
    (hdone : poolDone (poolRun items f limit sched) = true) :
    ((poolRun items f limit sched).log.map Prod.fst).Perm items ∧
    (poolRun items f limit sched).log =
      ((poolRun items f limit sched).log.map Prod.fst).map (fun a => (a, f a)) ∧
    (∀ (γ : Type) (g : α × β → Option γ),
      ((poolRun items f limit sched).log.filterMap g).Perm
        (items.filterMap fun a => g (a, f a))) := by
  set s := poolRun items f limit sched with hs
  have inv : PoolInv items f limit s := poolRun_inv items f limit sched
  have hbusy_none : ∀ ws ∈ s.workers, ws.busy = none := by
    intro ws hws
    have hd : ws.done = true := by
      unfold poolDone at hdone
      rw [List.all_eq_true] at hdone
      exact hdone ws hws
    exact inv.done_nobusy ws hws hd
  have hfm : s.workers.filterMap (fun ws => ws.busy) = [] :=
    List.filterMap_eq_nil_iff.mpr hbusy_none
  have hperm : (s.log.map Prod.fst).Perm items := by
    cases hw : s.workers with
    | nil =>
      have hlen : min limit items.length = 0 := by
        have := inv.wlen
        rw [hw] at this
        simpa using this.symm
      have hitems : items.length = 0 := by omega
      have hbal := inv.balance
      rw [hfm, List.append_nil] at hbal
      have : items.take s.cursor = [] := by
        have h0 : s.cursor = 0 := by
          have := inv.cursor_le
          omega
        rw [h0]
        rfl
      rw [this] at hbal
      have hitems' : items = [] := List.length_eq_zero.mp hitems
      rw [hitems']
      exact hbal
    | cons w0 rest =>
      have hw0 : w0 ∈ s.workers := by rw [hw]; exact List.mem_cons_self w0 rest
      have hd0 : w0.done = true := by
        unfold poolDone at hdone
        rw [List.all_eq_true] at hdone
        exact hdone w0 hw0
      have hcur : s.cursor = items.length := inv.done_cursor w0 hw0 hd0
      have hbal := inv.balance
      rw [hfm, List.append_nil, hcur, List.take_length] at hbal
      exact hbal
  have hlog : s.log = (s.log.map Prod.fst).map (fun a => (a, f a)) :=
    log_shape f s.log inv.log_f
  refine ⟨hperm, hlog, ?_⟩
  intro γ g
  have h1 : s.log.filterMap g =
      (s.log.map Prod.fst).filterMap (fun a => g (a, f a)) := by
    conv_lhs => rw [hlog]
    rw [List.filterMap_map]
    rfl
  rw [h1]
  exact List.Perm.filterMap _ hperm

/-- Witness for C6: two workers over three items under an explicit
schedule; the pool resolves and the log is a permutation of the items. -/
theorem C6_pool_processes_each_item_once_witness :
    ((poolRun [10, 20, 30] (fun a => a + 1) 2
        [0, 1, 0, 1, 0, 0, 0, 1]).log.map Prod.fst).Perm [10, 20, 30] :=
  (C6_pool_processes_each_item_once [10, 20, 30] (fun a => a + 1) 2
      [0, 1, 0, 1, 0, 0, 0, 1] (by decide) (by decide)).1

/-!
## C8: the failure reports are sorted by URL
-/

/-- A Boolean that is not true is false. -/
theorem bool_eq_false {x : Bool} (h : ¬ x = true) : x = false := by
  cases x
  · rfl
  · exact absurd rfl h

/-- A Boolean whose negation is true is false. -/
theorem bnot_true {x : Bool} (h : (!x) = true) : x = false := by
  cases x
  · rfl
  · exact absurd h (by decide)

/-- A false Boolean has a true negation. -/
theorem bnot_of_false {x : Bool} (h : x = false) : (!x) = true := by
  rw [h]
  rfl

/-- `listLexLt` is irreflexive. -/
theorem listLexLt_irrefl : ∀ a : List Nat, listLexLt a a = false
  | [] => rfl
  | x :: xs => by
    unfold listLexLt
    rw [if_neg (lt_irrefl x), if_neg (lt_irrefl x)]
    exact listLexLt_irrefl xs

/-- `listLexLt` is transitive. -/
theorem listLexLt_trans : ∀ a b c : List Nat,
    listLexLt a b = true → listLexLt b c = true → listLexLt a c = true
  | [], [], _, h1, _ => by simp [listLexLt] at h1
  | [], _ :: _, [], _, h2 => by simp [listLexLt] at h2
  | [], _ :: _, _ :: _, _, _ => by simp [listLexLt]
  | _ :: _, [], _, h1, _ => by simp [listLexLt] at h1
  | _ :: _, _ :: _, [], _, h2 => by simp [listLexLt] at h2
  | a :: as, b :: bs, c :: cs, h1, h2 => by
    simp only [listLexLt] at h1 h2 ⊢
    by_cases hab : a < b
    · by_cases hbc : b < c
      · rw [if_pos (by omega : a < c)]
      · by_cases hcb : c < b
        · rw [if_neg hbc, if_pos hcb] at h2
          exact absurd h2 (by decide)
        · rw [if_pos (by omega : a < c)]
    · by_cases hba : b < a
      · rw [if_neg hab, if_pos hba] at h1
        exact absurd h1 (by decide)
      · rw [if_neg hab, if_neg hba] at h1
        by_cases hbc : b < c
        · rw [if_pos (by omega : a < c)]
        · by_cases hcb : c < b
          · rw [if_neg hbc, if_pos hcb] at h2
            exact absurd h2 (by decide)
          · rw [if_neg hbc, if_neg hcb] at h2
            rw [if_neg (by omega : ¬ a < c), if_neg (by omega : ¬ c < a)]
            exact listLexLt_trans as bs cs h1 h2

/-- Two weight sequences that compare neither way are equal. -/
theorem listLexLt_eq_of_not : ∀ a b : List Nat,
    listLexLt a b = false → listLexLt b a = false → a = b
  | [], [], _, _ => rfl
  | [], _ :: _, h1, _ => by simp [listLexLt] at h1
  | _ :: _, [], _, h2 => by simp [listLexLt] at h2
  | a :: as, b :: bs, h1, h2 => by
    simp only [listLexLt] at h1 h2
    by_cases hab : a < b
    · rw [if_pos hab] at h1
      exact absurd h1 (by decide)
    · by_cases hba : b < a
      · rw [if_pos hba] at h2
        exact absurd h2 (by decide)
      · rw [if_neg hab, if_neg hba] at h1
        rw [if_neg hba, if_neg hab] at h2
        rw [(by omega : a = b), listLexLt_eq_of_not as bs h1 h2]

/-- `listLexLt` is asymmetric. -/
theorem listLexLt_asymm {a b : List Nat} (h : listLexLt a b = true) :
    listLexLt b a = false := by
  cases hba : listLexLt b a with
  | false => rfl
  | true =>
    have htr := listLexLt_trans a b a h hba
    rw [listLexLt_irrefl] at htr
    exact absurd htr (by decide)

/-- `localeLe` is total. -/
theorem localeLe_total (a b : List Char) : localeLe a b = true ∨ localeLe b a = true := by
  unfold localeLe
  by_cases h1 : listLexLt (a.map asciiPrimary) (b.map asciiPrimary) = true
  · left
    rw [if_pos h1]
  · by_cases h2 : listLexLt (b.map asciiPrimary) (a.map asciiPrimary) = true
    · right
      rw [if_pos h2]
    · simp only [if_neg h1, if_neg h2]
      cases h3 : listLexLt (b.map asciiTertiary) (a.map asciiTertiary) with
      | false =>
        left
        rfl
      | true =>
        right
        rw [listLexLt_asymm h3]
        rfl

/-- `localeLe` is transitive. -/
theorem localeLe_trans (a b c : List Char) (h1 : localeLe a b = true)
    (h2 : localeLe b c = true) : localeLe a c = true := by
  unfold localeLe at h1 h2 ⊢
  by_cases pab : listLexLt (a.map asciiPrimary) (b.map asciiPrimary) = true
  · by_cases pbc : listLexLt (b.map asciiPrimary) (c.map asciiPrimary) = true
    · rw [if_pos (listLexLt_trans _ _ _ pab pbc)]
    · by_cases pcb : listLexLt (c.map asciiPrimary) (b.map asciiPrimary) = true
      · rw [if_neg pbc, if_pos pcb] at h2
        exact absurd h2 (by decide)
      · have hpe : b.map asciiPrimary = c.map asciiPrimary :=
          listLexLt_eq_of_not _ _ (bool_eq_false pbc) (bool_eq_false pcb)
        have pac : listLexLt (a.map asciiPrimary) (c.map asciiPrimary) = true := by
          rw [← hpe]
          exact pab
        rw [if_pos pac]
  · by_cases pba : listLexLt (b.map asciiPrimary) (a.map asciiPrimary) = true
    · rw [if_neg pab, if_pos pba] at h1
      exact absurd h1 (by decide)
    · have hpe : a.map asciiPrimary = b.map asciiPrimary :=
        listLexLt_eq_of_not _ _ (bool_eq_false pab) (bool_eq_false pba)
      rw [if_neg pab, if_neg pba] at h1
      by_cases pbc : listLexLt (b.map asciiPrimary) (c.map asciiPrimary) = true
      · have pac : listLexLt (a.map asciiPrimary) (c.map asciiPrimary) = true := by
          rw [hpe]
          exact pbc
        rw [if_pos pac]
      · by_cases pcb : listLexLt (c.map asciiPrimary) (b.map asciiPrimary) = true
        · rw [if_neg pbc, if_pos pcb] at h2
          exact absurd h2 (by decide)
        · have hpe2 : b.map asciiPrimary = c.map asciiPrimary :=
            listLexLt_eq_of_not _ _ (bool_eq_false pbc) (bool_eq_false pcb)
          rw [if_neg pbc, if_neg pcb] at h2
          have pac : ¬ listLexLt (a.map asciiPrimary) (c.map asciiPrimary) = true := by
            rw [← hpe2]
            exact pab
          have pca : ¬ listLexLt (c.map asciiPrimary) (a.map asciiPrimary) = true := by
            rw [← hpe2]
            exact pba
          rw [if_neg pac, if_neg pca]
          have h1' := bnot_true h1
          have h2' := bnot_true h2
          apply bnot_of_false
          cases hca : listLexLt (c.map asciiTertiary) (a.map asciiTertiary) with
          | false => rfl
          | true =>
            exfalso
            cases hbc2 : listLexLt (b.map asciiTertiary) (c.map asciiTertiary) with
            | true =>
              exact absurd
                (h1'.symm.trans (listLexLt_trans _ _ _ hbc2 hca)) (by decide)
            | false =>
              have hbceq : b.map asciiTertiary = c.map asciiTertiary :=
                listLexLt_eq_of_not _ _ hbc2 h2'
              rw [hbceq] at h1'
              exact absurd (h1'.symm.trans hca) (by decide)

/-- `tableIdx` finds its character. -/
theorem tableIdx_get : ∀ (t : List Char) (c : Char) (i : Nat),
    tableIdx t c = some i → t.get? i = some c
  | [], _, _, h => by simp [tableIdx] at h
  | d :: rest, c, i, h => by
    unfold tableIdx at h
    by_cases hdc : d = c
    · rw [if_pos hdc] at h
      rw [Option.some.injEq] at h
      rw [← h, List.get?_cons_zero, hdc]
    · rw [if_neg hdc] at h
      cases hr : tableIdx rest c with
      | none =>
        rw [hr] at h
        simp at h
      | some j =>
        rw [hr] at h
        simp only [Option.map_some'] at h
        rw [Option.some.injEq] at h
        rw [← h, List.get?_cons_succ]
        exact tableIdx_get rest c j hr

/-- A found index is within the table. -/
theorem tableIdx_lt {t : List Char} {c : Char} {i : Nat}
    (h : tableIdx t c = some i) : i < t.length := by
  have hg := tableIdx_get t c i h
  rw [List.get?_eq_some] at hg
  obtain ⟨hlt, -⟩ := hg
  exact hlt

/-- Equal case folds and equal case flags force equal characters. -/
theorem lower_tert_inj (c d : Char) (hl : lowerChar c = lowerChar d)
    (ht : asciiTertiary c = asciiTertiary d) : c = d := by
  unfold asciiTertiary at ht
  unfold lowerChar at hl
  by_cases hc : 65 ≤ c.toNat ∧ c.toNat ≤ 90
  · by_cases hd : 65 ≤ d.toNat ∧ d.toNat ≤ 90
    · rw [if_pos hc, if_pos hd] at hl
      have hn := congrArg Char.toNat hl
      have hofn : ∀ n : Nat, n < 55296 → (Char.ofNat n).toNat = n := by
        intro n hnn
        unfold Char.ofNat
        rw [dif_pos]
        · rfl
        · exact Or.inl hnn
      rw [hofn _ (by omega), hofn _ (by omega)] at hn
      have htn : c.toNat = d.toNat := by omega
      rw [← Char.ofNat_toNat c, ← Char.ofNat_toNat d, htn]
    · rw [if_pos hc, if_neg hd] at ht
      exact absurd ht (by decide)
  · by_cases hd : 65 ≤ d.toNat ∧ d.toNat ≤ 90
    · rw [if_neg hc, if_pos hd] at ht
      exact absurd ht (by decide)
    · rw [if_neg hc, if_neg hd] at hl
      exact hl

/-- The primary and tertiary weights together determine the character. -/
theorem primary_tertiary_inj (c d : Char) (hp : asciiPrimary c = asciiPrimary d)
    (ht : asciiTertiary c = asciiTertiary d) : c = d := by
  unfold asciiPrimary at hp
  cases hc : tableIdx ducetTable (lowerChar c) with
  | some i =>
    cases hd : tableIdx ducetTable (lowerChar d) with
    | some j =>
      rw [hc, hd] at hp
      dsimp only at hp
      subst hp
      have g1 := tableIdx_get _ _ _ hc
      have g2 := tableIdx_get _ _ _ hd
      rw [g1, Option.some.injEq] at g2
      exact lower_tert_inj c d g2 ht
    | none =>
      rw [hc, hd] at hp
      dsimp only at hp
      have hlt := tableIdx_lt hc
      have hlen : ducetTable.length = 69 := by rfl
      omega
  | none =>
    cases hd : tableIdx ducetTable (lowerChar d) with
    | some j =>
      rw [hc, hd] at hp
      dsimp only at hp
      have hlt := tableIdx_lt hd
      have hlen : ducetTable.length = 69 := by rfl
      omega
    | none =>
      rw [hc, hd] at hp
      dsimp only at hp
      have htn : c.toNat = d.toNat := by omega
      rw [← Char.ofNat_toNat c, ← Char.ofNat_toNat d, htn]

/-- Equal weight sequences force equal strings. -/
theorem map_weights_inj : ∀ a b : List Char,
    a.map asciiPrimary = b.map asciiPrimary →
    a.map asciiTertiary = b.map asciiTertiary → a = b
  | [], [], _, _ => rfl
  | [], _ :: _, hp, _ => by simp at hp
  | _ :: _, [], hp, _ => by simp at hp
  | c :: cs, d :: ds, hp, ht => by
    rw [List.map_cons, List.map_cons, List.cons.injEq] at hp ht
    rw [primary_tertiary_inj c d hp.1 ht.1, map_weights_inj cs ds hp.2 ht.2]

/-- `localeLe` is antisymmetric. -/
theorem localeLe_antisymm (a b : List Char) (h1 : localeLe a b = true)
    (h2 : localeLe b a = true) : a = b := by
  unfold localeLe at h1 h2
  by_cases pab : listLexLt (a.map asciiPrimary) (b.map asciiPrimary) = true
  · have hba : ¬ listLexLt (b.map asciiPrimary) (a.map asciiPrimary) = true := by
      rw [listLexLt_asymm pab]
      exact Bool.false_ne_true
    rw [if_neg hba, if_pos pab] at h2
    exact absurd h2 (by decide)
  · by_cases pba : listLexLt (b.map asciiPrimary) (a.map asciiPrimary) = true
    · rw [if_neg pab, if_pos pba] at h1
      exact absurd h1 (by decide)
    · have hpe : a.map asciiPrimary = b.map asciiPrimary :=
        listLexLt_eq_of_not _ _ (bool_eq_false pab) (bool_eq_false pba)
      rw [if_neg pab, if_neg pba] at h1
      rw [if_neg pba, if_neg pab] at h2
      have h1' := bnot_true h1
      have h2' := bnot_true h2
      have hte : a.map asciiTertiary = b.map asciiTertiary :=
        listLexLt_eq_of_not _ _ h2' h1'
      exact map_weights_inj a b hpe hte

/-- Inserting keeps the list a permutation. -/
theorem insertFailed_perm (x : FailedResult) (l : List FailedResult) :
    (insertFailed x l).Perm (x :: l) := by
  induction l with
  | nil => exact List.Perm.refl _
  | cons y ys ih =>
    unfold insertFailed
    by_cases h : localeLe x.url y.url = true
    · rw [if_pos h]
    · rw [if_neg h]
      exact (ih.cons y).trans (List.Perm.swap x y ys)

/-- Inserting keeps the list sorted by URL. -/
theorem insertFailed_sorted (x : FailedResult) (l : List FailedResult)
    (h : l.Pairwise (fun a b => localeLe a.url b.url = true)) :
    (insertFailed x l).Pairwise (fun a b => localeLe a.url b.url = true) := by
  induction l with
  | nil => simp [insertFailed]
  | cons y ys ih =>
    rw [List.pairwise_cons] at h
    obtain ⟨hy, hys⟩ := h
    unfold insertFailed
    by_cases hle : localeLe x.url y.url = true
    · rw [if_pos hle, List.pairwise_cons]
      refine ⟨?_, List.pairwise_cons.mpr ⟨hy, hys⟩⟩
      intro b hb
      rcases List.mem_cons.mp hb with rfl | hb
      · exact hle
      · exact localeLe_trans _ _ _ hle (hy b hb)
    · rw [if_neg hle, List.pairwise_cons]
      refine ⟨?_, ih hys⟩
      intro b hb
      have hmem := (insertFailed_perm x ys).mem_iff.mp hb
      rcases List.mem_cons.mp hmem with rfl | hb2
      · rcases localeLe_total b.url y.url with h1 | h1
        · exact absurd h1 hle
        · exact h1
      · exact hy b hb2

/-- The sort is a permutation of its input. -/
theorem sortFailed_perm (l : List FailedResult) : (sortFailed l).Perm l := by
  induction l with
  | nil => exact List.Perm.refl _
  | cons x xs ih =>
    exact (insertFailed_perm x (sortFailed xs)).trans (ih.cons x)

/-- The sort output is sorted by URL. -/
theorem sortFailed_sorted (l : List FailedResult) :
    (sortFailed l).Pairwise (fun a b => localeLe a.url b.url = true) := by
  induction l with
  | nil => simp [sortFailed]
  | cons x xs ih => exact insertFailed_sorted x (sortFailed xs) ih

/-- C8 counterexample: the sort the source performs is by
`localeCompare`, whose collation puts `/apple` before `/Bar` (case is
only a tertiary difference, lowercase first), so the program output on
these two reports is not sorted by code-point lexicographic order and
the claim's "sorted lexicographically" fails. -/
theorem C8_counterexample :
    sortFailed [⟨"https://x.com/Bar".toList, "HTTP 404", []⟩,
        ⟨"https://x.com/apple".toList, "timeout", []⟩] =
      [⟨"https://x.com/apple".toList, "timeout", []⟩,
        ⟨"https://x.com/Bar".toList, "HTTP 404", []⟩] ∧
    ¬ ([⟨"https://x.com/apple".toList, "timeout", ([] : List LinkOccurrence)⟩,
        ⟨"https://x.com/Bar".toList, "HTTP 404", []⟩] :
        List FailedResult).Pairwise (fun a b => lexLe a.url b.url = true) := by
  constructor
  · decide
  · decide

/-- C8 (amended): the final list of failure reports is a permutation of
the collected failures sorted ascending by the `localeCompare`
collation order on URLs; with the URLs distinct (as they are, one check
per unique URL), any two completion orders of the concurrent checks
produce the same sorted output. -/
theorem C8_failures_sorted_by_url (l : List FailedResult) :
    (sortFailed l).Perm l ∧
    (sortFailed l).Pairwise (fun a b => localeLe a.url b.url = true) ∧
    (∀ l₂ : List FailedResult, l.Pairwise (fun a b => a.url ≠ b.url) → l.Perm l₂ →
      sortFailed l = sortFailed l₂) := by
  refine ⟨sortFailed_perm l, sortFailed_sorted l, ?_⟩
  intro l₂ hnd hp
  have hperm : (sortFailed l).Perm (sortFailed l₂) :=
    (sortFailed_perm l).trans (hp.trans (sortFailed_perm l₂).symm)
  have hne1 : (sortFailed l).Pairwise (fun a b => a.url ≠ b.url) :=
    (List.Perm.pairwise_iff (fun h => Ne.symm h) (sortFailed_perm l)).mpr hnd
  have hnd2 : l₂.Pairwise (fun a b => a.url ≠ b.url) :=
    (List.Perm.pairwise_iff (fun h => Ne.symm h) hp).mp hnd
  have hne2 : (sortFailed l₂).Pairwise (fun a b => a.url ≠ b.url) :=
    (List.Perm.pairwise_iff (fun h => Ne.symm h) (sortFailed_perm l₂)).mpr hnd2
  have hs1 := (sortFailed_sorted l).and hne1
  have hs2 := (sortFailed_sorted l₂).and hne2
  haveI : IsAntisymm FailedResult
      (fun a b => localeLe a.url b.url = true ∧ a.url ≠ b.url) :=
    ⟨fun a b h1 h2 => absurd (localeLe_antisymm _ _ h1.1 h2.1) h1.2⟩
  exact List.eq_of_perm_of_sorted hperm hs1 hs2

/-- Witness for C8: two requested orders of the same mixed-case reports
sort to the same list. -/
theorem C8_failures_sorted_by_url_witness :
    sortFailed [⟨"https://x.com/Bar".toList, "HTTP 404", []⟩,
        ⟨"https://x.com/apple".toList, "timeout", []⟩] =
      sortFailed [⟨"https://x.com/apple".toList, "timeout", []⟩,
        ⟨"https://x.com/Bar".toList, "HTTP 404", []⟩] :=
  (C8_failures_sorted_by_url
      [⟨"https://x.com/Bar".toList, "HTTP 404", []⟩,
        ⟨"https://x.com/apple".toList, "timeout", []⟩]).2.2
    [⟨"https://x.com/apple".toList, "timeout", []⟩,
      ⟨"https://x.com/Bar".toList, "HTTP 404", []⟩]
    (by decide) (by decide)

/-- C9: the source's GET-escalation predicate (status ≥ 400 or exactly
429) is equal, as a predicate on all statuses, to `status ≥ 400`, and
`checkUrl` is observably the checker that escalates on any ≥ 400. -/
theorem C9_escalation_equivalent :
    (∀ s : Nat, escalates s = escalatesSimple s) ∧
    (∀ head get : FetchSpec, checkUrl head get = checkUrlSimple head get) := by
  have h : ∀ s : Nat, escalates s = escalatesSimple s := by
    intro s
    unfold escalates escalatesSimple
    by_cases h4 : 400 ≤ s
    · simp [h4]
    · have h429 : s ≠ 429 := by omega
      simp [h4, h429]
  refine ⟨h, ?_⟩
  intro head get
  unfold checkUrl checkUrlSimple
  cases fetchWithTimeout head with
  | failure e => rfl
  | success s => simp only [h s]

/-!
## C10: URL normalization is idempotent and merges equal serializations
-/

/-- `Char.ofNat` below the surrogate range round-trips. -/
theorem char_toNat_ofNat {n : Nat} (h : n < 55296) : (Char.ofNat n).toNat = n := by
  unfold Char.ofNat
  rw [dif_pos]
  · rfl
  · exact Or.inl h

/-- ASCII lowering is idempotent. -/
theorem lowerChar_lowerChar (c : Char) : lowerChar (lowerChar c) = lowerChar c := by
  unfold lowerChar
  by_cases h : 65 ≤ c.toNat ∧ c.toNat ≤ 90
  · rw [if_pos h]
    have ht : (Char.ofNat (c.toNat + 32)).toNat = c.toNat + 32 := char_toNat_ofNat (by omega)
    simp only [ht]
    rw [if_neg (by omega)]
  · rw [if_neg h, if_neg h]

/-- Lowering fixes host characters. -/
theorem lowerChar_hostChar {c : Char} (h : isHostChar c = true) : lowerChar c = c := by
  unfold isHostChar at h
  simp only [Bool.or_eq_true, decide_eq_true_eq] at h
  rcases h with ((⟨h1, h2⟩ | ⟨h1, h2⟩) | rfl) | rfl
  · unfold lowerChar; rw [if_neg (by omega)]
  · unfold lowerChar; rw [if_neg (by omega)]
  · decide
  · decide

/-- A host character is not a host delimiter. -/
theorem hostChar_not_delim {c : Char} (h : isHostChar c = true) : isHostDelim c = false := by
  unfold isHostChar at h
  simp only [Bool.or_eq_true, decide_eq_true_eq] at h
  unfold isHostDelim
  simp only [Bool.or_eq_false_iff, decide_eq_false_iff_not]
  rcases h with ((⟨h1, h2⟩ | ⟨h1, h2⟩) | rfl) | rfl
  · refine ⟨⟨⟨?_, ?_⟩, ?_⟩, ?_⟩ <;> (intro heq; subst heq; revert h1 h2; decide)
  · refine ⟨⟨⟨?_, ?_⟩, ?_⟩, ?_⟩ <;> (intro heq; subst heq; revert h1 h2; decide)
  · decide
  · decide

/-- A host character is not a slash. -/
theorem hostChar_not_slash {c : Char} (h : isHostChar c = true) :
    decide (c = '/') = false := by
  have hd := hostChar_not_delim h
  unfold isHostDelim at hd
  simp only [Bool.or_eq_false_iff, decide_eq_false_iff_not] at hd
  simp only [decide_eq_false_iff_not]
  exact hd.1.1.1

/-- The characters of a `takeWhile` satisfy the predicate. -/
theorem all_takeWhile (p : Char → Bool) : ∀ l : List Char, (l.takeWhile p).all p = true := by
  intro l
  induction l with
  | nil => rfl
  | cons c cs ih =>
    rw [List.takeWhile_cons]
    by_cases h : p c = true
    · rw [if_pos h]
      simp [h, ih]
    · rw [if_neg h]
      rfl

/-- `takeWhile` over an all-satisfying list is the list. -/
theorem takeWhile_of_all (p : Char → Bool) : ∀ l : List Char, l.all p = true →
    l.takeWhile p = l := by
  intro l
  induction l with
  | nil => intro _; rfl
  | cons c cs ih =>
    intro h
    rw [List.all_cons, Bool.and_eq_true] at h
    rw [List.takeWhile_cons, if_pos h.1, ih h.2]

/-- `takeWhile` stops exactly at the first failing character. -/
theorem takeWhile_break (p : Char → Bool) : ∀ (l₁ : List Char) (c : Char) (l₂ : List Char),
    l₁.all p = true → p c = false → (l₁ ++ c :: l₂).takeWhile p = l₁ := by
  intro l₁
  induction l₁ with
  | nil =>
    intro c l₂ _ hc
    rw [List.nil_append, List.takeWhile_cons, if_neg (by simp [hc])]
  | cons d l₁ ih =>
    intro c l₂ h hc
    rw [List.all_cons, Bool.and_eq_true] at h
    rw [List.cons_append, List.takeWhile_cons, if_pos h.1, ih c l₂ h.2 hc]

/-- `dropWhile` keeps a list whose head fails the predicate. -/
theorem dropWhile_cons_neg {p : Char → Bool} {c : Char} {l : List Char} (hc : p c = false) :
    (c :: l).dropWhile p = c :: l := by
  rw [List.dropWhile_cons, if_neg (by simp [hc])]

/-- Pointwise implication between `all` predicates. -/
theorem all_imp {p q : Char → Bool} (h : ∀ c, p c = true → q c = true) :
    ∀ l : List Char, l.all p = true → l.all q = true := by
  intro l hl
  rw [List.all_eq_true] at hl ⊢
  exact fun c hc => h c (hl c hc)

/-- Lowering fixes an all-host-character list. -/
theorem map_lower_of_host : ∀ l : List Char, l.all isHostChar = true →
    l.map lowerChar = l := by
  intro l
  induction l with
  | nil => intro _; rfl
  | cons c cs ih =>
    intro h
    rw [List.all_cons, Bool.and_eq_true] at h
    rw [List.map_cons, lowerChar_hostChar h.1, ih h.2]

/-- `all` survives a `dropWhile`. -/
theorem all_dropWhile {p q : Char → Bool} {l : List Char} (h : l.all p = true) :
    (l.dropWhile q).all p = true := by
  rw [List.all_eq_true] at h ⊢
  intro c hc
  exact h c ((List.dropWhile_sublist q).subset hc)

/-- Canonical port digit strings are fixed by canonicalization. -/
theorem canonicalPortDigits_idem (ds : List Char) :
    canonicalPortDigits (canonicalPortDigits ds) = canonicalPortDigits ds := by
  by_cases h : ds ≠ [] ∧ ds.dropWhile (fun c => c = '0') = []
  · have h1 : canonicalPortDigits ds = ['0'] := by
      unfold canonicalPortDigits
      rw [if_pos h]
    rw [h1]
    decide
  · have h1 : canonicalPortDigits ds = ds.dropWhile (fun c => c = '0') := by
      unfold canonicalPortDigits
      rw [if_neg h]
    rw [h1]
    by_cases h2 : ds.dropWhile (fun c => c = '0') = []
    · rw [h2]
      decide
    · unfold canonicalPortDigits
      rw [List.dropWhile_idempotent]
      rw [if_neg (by intro hc; exact h2 hc.2)]

/-- Canonicalization preserves digit-only strings. -/
theorem canonicalPortDigits_all_digit {ds : List Char} (h : ds.all isDigitChar = true) :
    (canonicalPortDigits ds).all isDigitChar = true := by
  by_cases hc : ds ≠ [] ∧ ds.dropWhile (fun c => c = '0') = []
  · unfold canonicalPortDigits
    rw [if_pos hc]
    decide
  · unfold canonicalPortDigits
    rw [if_neg hc]
    exact all_dropWhile h

/-- `parsePortAndAfter` on a remainder that starts with no colon. -/
theorem parsePortAndAfter_none (X : List Char) (hx : X.head? ≠ some ':') :
    parsePortAndAfter X = some (none, X) := by
  cases X with
  | nil => rfl
  | cons c cs =>
    unfold parsePortAndAfter
    split
    · rename_i pr heq
      rw [List.cons.injEq] at heq
      simp only [List.head?_cons, ne_eq, Option.some.injEq] at hx
      exact absurd heq.1 hx
    · rfl

/-- `parsePortAndAfter` on a serialized canonical non-default port. -/
theorem parsePortAndAfter_port (cp X : List Char) (hne : cp ≠ [])
    (hdig : cp.all isDigitChar = true) (hcanon : canonicalPortDigits cp = cp)
    (hx : X.head? = some '/' ∨ X.head? = some '?' ∨ X.head? = some '#') :
    parsePortAndAfter (':' :: (cp ++ X)) = some (some cp, X) := by
  obtain ⟨c, X', rfl⟩ : ∃ c X', X = c :: X' := by
    rcases hx with h | h | h <;>
      (cases X with
        | nil => simp at h
        | cons d ds => exact ⟨d, ds, rfl⟩)
  have hc : c = '/' ∨ c = '?' ∨ c = '#' := by
    rcases hx with h | h | h <;> simp at h <;> simp [h]
  have hcd : isDigitChar c = false := by
    rcases hc with rfl | rfl | rfl <;> decide
  show (let ds := (cp ++ c :: X').takeWhile isDigitChar
    let after := (cp ++ c :: X').drop ds.length
    match after.head? with
    | none =>
      some (if canonicalPortDigits ds = [] then none else some (canonicalPortDigits ds), after)
    | some c =>
      if c = '/' ∨ c = '?' ∨ c = '#' then
        some (if canonicalPortDigits ds = [] then none else some (canonicalPortDigits ds), after)
      else none) = some (some cp, c :: X')
  rw [show (cp ++ c :: X').takeWhile isDigitChar = cp from takeWhile_break _ cp c X' hdig hcd]
  dsimp only
  rw [List.drop_left, List.head?_cons]
  show (if c = '/' ∨ c = '?' ∨ c = '#' then
      some (if canonicalPortDigits cp = [] then none else some (canonicalPortDigits cp),
        c :: X')
    else none) = some (some cp, c :: X')
  rw [if_pos hc, hcanon, if_neg hne]

/-- `parsePathQueryFrag` on a serialized path, query and fragment. -/
theorem parsePathQueryFrag_eval (path : List Char) (q f : Option (List Char))
    (hhead : path.head? = some '/') (hall : path.all isPathChar = true)
    (hq : ∀ qs, q = some qs → qs.all isQueryChar = true) :
    parsePathQueryFrag (path ++
      (q.elim [] (fun qs => '?' :: qs) ++
        f.elim [] (fun fs => '#' :: fs))) = (path, q, f) := by
  have hpne : path ≠ [] := by
    intro h
    rw [h] at hhead
    simp at hhead
  cases q with
  | some qs =>
    have hqall := hq qs rfl
    cases f with
    | some fs =>
      show parsePathQueryFrag (path ++ ('?' :: (qs ++ '#' :: fs))) = (path, some qs, some fs)
      unfold parsePathQueryFrag
      dsimp only
      rw [takeWhile_break _ path '?' _ hall (by decide)]
      rw [if_neg hpne, List.drop_left]
      show (match (qs ++ '#' :: fs).drop
          ((qs ++ '#' :: fs).takeWhile isQueryChar).length with
        | '#' :: fr => (path, some ((qs ++ '#' :: fs).takeWhile isQueryChar), some fr)
        | _ => (path, some ((qs ++ '#' :: fs).takeWhile isQueryChar), none)) =
        (path, some qs, some fs)
      rw [takeWhile_break _ qs '#' fs hqall (by decide), List.drop_left]
      rfl
    | none =>
      show parsePathQueryFrag (path ++ ('?' :: (qs ++ []))) = (path, some qs, none)
      rw [List.append_nil]
      unfold parsePathQueryFrag
      dsimp only
      rw [takeWhile_break _ path '?' qs hall (by decide)]
      rw [if_neg hpne, List.drop_left]
      show (match qs.drop ((qs.takeWhile isQueryChar)).length with
        | '#' :: fr => (path, some (qs.takeWhile isQueryChar), some fr)
        | _ => (path, some (qs.takeWhile isQueryChar), none)) = (path, some qs, none)
      rw [takeWhile_of_all _ qs hqall, List.drop_length]
  | none =>
    cases f with
    | some fs =>
      show parsePathQueryFrag (path ++ ([] ++ '#' :: fs)) = (path, none, some fs)
      rw [List.nil_append]
      unfold parsePathQueryFrag
      dsimp only
      rw [takeWhile_break _ path '#' fs hall (by decide)]
      rw [if_neg hpne, List.drop_left]
      rfl
    | none =>
      show parsePathQueryFrag (path ++ ([] ++ [])) = (path, none, none)
      rw [List.nil_append, List.append_nil]
      unfold parsePathQueryFrag
      dsimp only
      rw [takeWhile_of_all _ path hall]
      rw [if_neg hpne, List.drop_length]

/-- Dropping a `takeWhile` prefix is `dropWhile`. -/
theorem drop_length_takeWhile (p : Char → Bool) : ∀ l : List Char,
    l.drop (l.takeWhile p).length = l.dropWhile p := by
  intro l
  induction l with
  | nil => rfl
  | cons c cs ih =>
    rw [List.takeWhile_cons, List.dropWhile_cons]
    by_cases h : p c = true
    · rw [if_pos h, if_pos h, List.length_cons, List.drop_succ_cons, ih]
    · rw [if_neg h, if_neg h, List.length_nil, List.drop_zero]

/-- The head surviving a `dropWhile` fails the predicate. -/
theorem head_dropWhile_false (p : Char → Bool) : ∀ (l : List Char) (c : Char),
    (l.dropWhile p).head? = some c → p c = false := by
  intro l
  induction l with
  | nil => intro c h; simp at h
  | cons d ds ih =>
    intro c h
    rw [List.dropWhile_cons] at h
    by_cases hd : p d = true
    · rw [if_pos hd] at h
      exact ih c h
    · rw [if_neg hd] at h
      rw [List.head?_cons, Option.some.injEq] at h
      rw [← h]
      exact Bool.not_eq_true _ ▸ hd

/-- The components produced by `parsePathQueryFrag`: the path starts
with a slash and is delimiter-free, and the query is hash-free. -/
theorem parsePathQueryFrag_inv (rest : List Char)
    (hh : rest.head? = none ∨ rest.head? = some '/' ∨ rest.head? = some '?' ∨
      rest.head? = some '#') :
    (parsePathQueryFrag rest).1.head? = some '/' ∧
    (parsePathQueryFrag rest).1.all isPathChar = true ∧
    (∀ qs, (parsePathQueryFrag rest).2.1 = some qs → qs.all isQueryChar = true) := by
  have hpall : (if rest.takeWhile isPathChar = [] then ['/']
      else rest.takeWhile isPathChar).all isPathChar = true := by
    by_cases hpr : rest.takeWhile isPathChar = []
    · rw [if_pos hpr]; decide
    · rw [if_neg hpr]; exact all_takeWhile _ rest
  have hphead : (if rest.takeWhile isPathChar = [] then ['/']
      else rest.takeWhile isPathChar).head? = some '/' := by
    by_cases hpr : rest.takeWhile isPathChar = []
    · rw [if_pos hpr]; rfl
    · rw [if_neg hpr]
      rcases hh with h0 | h0 | h0 | h0
      · cases rest with
        | nil => exact absurd rfl hpr
        | cons c t => simp at h0
      · cases rest with
        | nil => simp at h0
        | cons c t =>
          rw [List.head?_cons, Option.some.injEq] at h0
          subst h0
          rw [List.takeWhile_cons, if_pos (by decide)]
          rfl
      · cases rest with
        | nil => simp at h0
        | cons c t =>
          rw [List.head?_cons, Option.some.injEq] at h0
          subst h0
          rw [List.takeWhile_cons, if_neg (by decide)] at hpr
          exact absurd rfl hpr
      · cases rest with
        | nil => simp at h0
        | cons c t =>
          rw [List.head?_cons, Option.some.injEq] at h0
          subst h0
          rw [List.takeWhile_cons, if_neg (by decide)] at hpr
          exact absurd rfl hpr
  refine ⟨?_, ?_, ?_⟩
  · unfold parsePathQueryFrag
    dsimp only
    split
    · split
      · exact hphead
      · exact hphead
    · exact hphead
    · exact hphead
  · unfold parsePathQueryFrag
    dsimp only
    split
    · split
      · exact hpall
      · exact hpall
    · exact hpall
    · exact hpall
  · unfold parsePathQueryFrag
    dsimp only
    split
    · split
      · intro qs hqs
        rw [Option.some.injEq] at hqs
        rw [← hqs]
        exact all_takeWhile _ _
      · intro qs hqs
        rw [Option.some.injEq] at hqs
        rw [← hqs]
        exact all_takeWhile _ _
    · intro qs hqs
      exact absurd hqs (by simp)
    · intro qs hqs
      exact absurd hqs (by simp)

/-- The components produced by `parsePortAndAfter`: a reported port is
non-empty canonical digits, and the remainder starts with a path,
query or fragment delimiter (or is empty). -/
theorem parsePortAndAfter_inv {rest : List Char} {pd : Option (List Char)} {after : List Char}
    (h : parsePortAndAfter rest = some (pd, after))
    (hrest : rest.head? = none ∨ ∃ c, rest.head? = some c ∧ isHostDelim c = true) :
    (∀ cp, pd = some cp → cp ≠ [] ∧ cp.all isDigitChar = true ∧
      canonicalPortDigits cp = cp) ∧
    (after.head? = none ∨ after.head? = some '/' ∨ after.head? = some '?' ∨
      after.head? = some '#') := by
  have hport : ∀ (ds : List Char) (cp : List Char),
      (if canonicalPortDigits (ds.takeWhile isDigitChar) = [] then none
        else some (canonicalPortDigits (ds.takeWhile isDigitChar))) = some cp →
      cp ≠ [] ∧ cp.all isDigitChar = true ∧ canonicalPortDigits cp = cp := by
    intro ds cp hcp
    by_cases hc0 : canonicalPortDigits (ds.takeWhile isDigitChar) = []
    · rw [if_pos hc0] at hcp
      exact absurd hcp (by simp)
    · rw [if_neg hc0] at hcp
      have he := Option.some.inj hcp
      refine ⟨by rw [← he]; exact hc0, ?_, ?_⟩
      · rw [← he]
        exact canonicalPortDigits_all_digit (all_takeWhile _ ds)
      · rw [← he]
        exact canonicalPortDigits_idem _
  unfold parsePortAndAfter at h
  split at h
  · rename_i pr
    dsimp only at h
    split at h
    · rename_i hhd
      have hinj := Option.some.inj h
      rw [Prod.mk.injEq] at hinj
      obtain ⟨h1, h2⟩ := hinj
      constructor
      · intro cp hcp
        rw [← h1] at hcp
        exact hport pr cp hcp
      · left
        rw [← h2]
        exact hhd
    · rename_i c hhd
      split at h
      · rename_i hcin
        have hinj := Option.some.inj h
        rw [Prod.mk.injEq] at hinj
        obtain ⟨h1, h2⟩ := hinj
        constructor
        · intro cp hcp
          rw [← h1] at hcp
          exact hport pr cp hcp
        · have hah : after.head? = some c := by rw [← h2]; exact hhd
          rcases hcin with rfl | rfl | rfl
          · exact Or.inr (Or.inl hah)
          · exact Or.inr (Or.inr (Or.inl hah))
          · exact Or.inr (Or.inr (Or.inr hah))
      · exact absurd h (by simp)
  · rename_i x hx
    have hinj := Option.some.inj h
    rw [Prod.mk.injEq] at hinj
    obtain ⟨h1, h2⟩ := hinj
    constructor
    · intro cp hcp
      rw [← h1] at hcp
      exact absurd hcp (by simp)
    · rcases hrest with h0 | ⟨c, hc, hdel⟩
      · left
        rw [← h2]
        exact h0
      · cases hr : rest with
        | nil => left; rw [← h2, hr]; rfl
        | cons d t =>
          rw [hr, List.head?_cons, Option.some.injEq] at hc
          rw [← hc] at hdel
          have hcne : ¬ d = ':' := by
            intro hceq
            exact hx t (by rw [hr, hceq])
          unfold isHostDelim at hdel
          simp only [Bool.or_eq_true, decide_eq_true_eq] at hdel
          have hah : after.head? = some d := by rw [← h2, hr]; rfl
          rcases hdel with ((hd | hd) | hd) | hd
          · exact Or.inr (Or.inl (by rw [hah, hd]))
          · exact absurd hd hcne
          · exact Or.inr (Or.inr (Or.inl (by rw [hah, hd])))
          · exact Or.inr (Or.inr (Or.inr (by rw [hah, hd])))

/-- Peeling the scheme stage of `urlParse` off a `scheme ++ ':' ++ rest`
input with a well-formed scheme. -/
theorem urlParse_split_scheme (sch rest1 : List Char) (hne : sch ≠ [])
    (hall : sch.all isSchemeChar = true)
    (halpha : ∀ c, sch.head? = some c → isAlphaChar c = true) :
    urlParse (sch ++ ':' :: rest1) =
      (if sch.map lowerChar = "http".toList ∨ sch.map lowerChar = "https".toList then
        (let afterSlashes := rest1.dropWhile (fun c => c = '/')
         let hostRaw := afterSlashes.takeWhile (fun c => !(isHostDelim c))
         let hostL := hostRaw.map lowerChar
         if hostRaw = [] ∨ ¬ hostL.all isHostChar then none
         else
           match parsePortAndAfter (afterSlashes.drop hostRaw.length) with
           | none => none
           | some (portDigits, rest3) =>
             let port :=
               match portDigits with
               | none => none
               | some cp => if cp = defaultPort (sch.map lowerChar) then none else some cp
             let pqf := parsePathQueryFrag rest3
             some (.special (sch.map lowerChar) hostL port pqf.1 pqf.2.1 pqf.2.2))
      else some (.nonspecial (sch.map lowerChar) rest1)) := by
  obtain ⟨c0, st, rfl⟩ : ∃ c0 st, sch = c0 :: st := by
    cases sch with
    | nil => exact absurd rfl hne
    | cons a b => exact ⟨a, b, rfl⟩
  unfold urlParse
  dsimp only
  rw [takeWhile_break _ (c0 :: st) ':' rest1 hall (by decide)]
  rw [List.head?_cons]
  show (if isAlphaChar c0 = true then
      match ((c0 :: st) ++ ':' :: rest1).drop (c0 :: st).length with
      | ':' :: rest1 => _
      | _ => none
    else none) = _
  rw [if_pos (halpha c0 rfl), List.drop_left]
  rfl


/-- The serializer of a special URL, reassociated to expose the scheme
prefix and written with `Option.elim`. -/
theorem urlToString_special_assoc (sch host : List Char) (port : Option (List Char))
    (path : List Char) (q f : Option (List Char)) :
    urlToString (.special sch host port path q f) =
      sch ++ ':' :: '/' :: '/' ::
        (host ++ (port.elim [] (fun p => ':' :: p) ++
          (path ++ (q.elim [] (fun qs => '?' :: qs) ++
            f.elim [] (fun fs => '#' :: fs))))) := by
  cases port <;> cases q <;> cases f <;>
    simp [urlToString, Option.elim, List.append_assoc]

/-- `takeWhile` stops at a failing character sitting at the head of an
appended block. -/
theorem takeWhile_break₂ (p : Char → Bool) (l₁ : List Char) (c : Char)
    (l₂ l₃ : List Char) (h₁ : l₁.all p = true) (hc : p c = false) :
    (l₁ ++ ((c :: l₂) ++ l₃)).takeWhile p = l₁ := by
  rw [List.cons_append]
  exact takeWhile_break p l₁ c (l₂ ++ l₃) h₁ hc

/-- `parsePortAndAfter` on an appended canonical port block. -/
theorem parsePortAndAfter_port₂ (cp X : List Char) (hne : cp ≠ [])
    (hdig : cp.all isDigitChar = true) (hcanon : canonicalPortDigits cp = cp)
    (hx : X.head? = some '/' ∨ X.head? = some '?' ∨ X.head? = some '#') :
    parsePortAndAfter ((':' :: cp) ++ X) = some (some cp, X) := by
  rw [List.cons_append]
  exact parsePortAndAfter_port cp X hne hdig hcanon hx

/-- Parsing the serialization of a well-formed special URL returns it
unchanged. -/
theorem urlParse_special_eval (sch host : List Char) (port : Option (List Char))
    (path : List Char) (q f : Option (List Char))
    (hsch : sch = "http".toList ∨ sch = "https".toList)
    (hhost : host ≠ []) (hhostchar : host.all isHostChar = true)
    (hport : ∀ cp, port = some cp → cp ≠ [] ∧ cp.all isDigitChar = true ∧
      canonicalPortDigits cp = cp ∧ ¬ cp = defaultPort sch)
    (hpath : path.head? = some '/') (hpathall : path.all isPathChar = true)
    (hq : ∀ qs, q = some qs → qs.all isQueryChar = true) :
    urlParse (urlToString (.special sch host port path q f)) =
      some (.special sch host port path q f) := by
  rw [urlToString_special_assoc]
  have hne : sch ≠ [] := by rcases hsch with rfl | rfl <;> decide
  have hallsch : sch.all isSchemeChar = true := by rcases hsch with rfl | rfl <;> decide
  have halpha : ∀ c, sch.head? = some c → isAlphaChar c = true := by
    have hh : sch.head? = some 'h' := by rcases hsch with rfl | rfl <;> rfl
    intro c hc
    rw [hh, Option.some.injEq] at hc
    rw [← hc]
    decide
  rw [urlParse_split_scheme sch _ hne hallsch halpha]
  have hlow : sch.map lowerChar = sch := by rcases hsch with rfl | rfl <;> decide
  rw [hlow, if_pos hsch]
  dsimp only
  obtain ⟨h0, ht, rfl⟩ : ∃ h0 ht, host = h0 :: ht := by
    cases host with
    | nil => exact absurd rfl hhost
    | cons a b => exact ⟨a, b, rfl⟩
  have hh0 : isHostChar h0 = true := by
    have h := hhostchar
    rw [List.all_cons, Bool.and_eq_true] at h
    exact h.1
  have hallnodelim : (h0 :: ht).all (fun c => !(isHostDelim c)) = true :=
    all_imp (fun c hc => by rw [hostChar_not_delim hc]; rfl) (h0 :: ht) hhostchar
  have hhostL : (h0 :: ht).map lowerChar = h0 :: ht := map_lower_of_host _ hhostchar
  have hslash0 : ¬ (decide (h0 = '/') = true) := by
    rw [hostChar_not_slash hh0]
    exact Bool.false_ne_true
  obtain ⟨pt, rfl⟩ : ∃ pt, path = '/' :: pt := by
    cases path with
    | nil => simp at hpath
    | cons a b =>
      rw [List.head?_cons, Option.some.injEq] at hpath
      exact ⟨b, by rw [hpath]⟩
  have hdw : List.dropWhile (fun c => decide (c = '/'))
      ('/' :: '/' :: ((h0 :: ht) ++ (port.elim [] (fun p => ':' :: p) ++
        (('/' :: pt) ++ (q.elim [] (fun qs => '?' :: qs) ++
          f.elim [] (fun fs => '#' :: fs)))))) =
      (h0 :: ht) ++ (port.elim [] (fun p => ':' :: p) ++
        (('/' :: pt) ++ (q.elim [] (fun qs => '?' :: qs) ++
          f.elim [] (fun fs => '#' :: fs)))) := by
    rw [List.dropWhile_cons, if_pos (by decide), List.dropWhile_cons, if_pos (by decide),
      List.cons_append, List.dropWhile_cons, if_neg hslash0]
  rw [hdw]
  cases port with
  | none =>
    simp only [Option.elim_none]
    rw [List.nil_append]
    rw [takeWhile_break₂ _ (h0 :: ht) '/' pt _ hallnodelim (by decide)]
    rw [hhostL]
    rw [if_neg (by simp [hhostchar])]
    rw [List.drop_left]
    rw [parsePortAndAfter_none _ (by
      intro h
      rw [List.cons_append, List.head?_cons, Option.some.injEq] at h
      exact absurd h (by decide))]
    dsimp only
    rw [parsePathQueryFrag_eval ('/' :: pt) q f rfl hpathall hq]
  | some cp =>
    obtain ⟨hcpne, hcpdig, hcpcan, hcpdef⟩ := hport cp rfl
    simp only [Option.elim_some]
    rw [takeWhile_break₂ _ (h0 :: ht) ':' cp _ hallnodelim (by decide)]
    rw [hhostL]
    rw [if_neg (by simp [hhostchar])]
    rw [List.drop_left]
    rw [parsePortAndAfter_port₂ cp _ hcpne hcpdig hcpcan
      (Or.inl (by rw [List.cons_append, List.head?_cons]))]
    dsimp only
    rw [if_neg hcpdef]
    rw [parsePathQueryFrag_eval ('/' :: pt) q f rfl hpathall hq]

/-- Inversion for a successful special parse: every component satisfies
the invariants the serializer round-trip needs. -/
theorem urlParse_inv_special (s sch host : List Char) (port : Option (List Char))
    (path : List Char) (q f : Option (List Char))
    (h : urlParse s = some (.special sch host port path q f)) :
    (sch = "http".toList ∨ sch = "https".toList) ∧ host ≠ [] ∧
    host.all isHostChar = true ∧
    (∀ cp, port = some cp → cp ≠ [] ∧ cp.all isDigitChar = true ∧
      canonicalPortDigits cp = cp ∧ ¬ cp = defaultPort sch) ∧
    path.head? = some '/' ∧ path.all isPathChar = true ∧
    (∀ qs, q = some qs → qs.all isQueryChar = true) := by
  unfold urlParse at h
  dsimp only at h
  split at h
  · exact Option.noConfusion h
  split at h
  · split at h
    · rename_i rest1 heq1
      split at h
      · rename_i hcond
        split at h
        · exact Option.noConfusion h
        · rename_i hhostcond
          split at h
          · exact Option.noConfusion h
          · rename_i pd rest3 hpp
            rw [Option.some.injEq, ParsedUrl.special.injEq] at h
            obtain ⟨hsch', hhost', hport', hpath', hq', hf'⟩ := h
            rw [not_or, not_not] at hhostcond
            obtain ⟨hrawne, hallhost⟩ := hhostcond
            have hdrop := drop_length_takeWhile (fun c => !(isHostDelim c))
              (rest1.dropWhile (fun c => decide (c = '/')))
            have hrest : (((rest1.dropWhile (fun c => decide (c = '/'))).drop
                ((rest1.dropWhile (fun c => decide (c = '/'))).takeWhile
                  (fun c => !(isHostDelim c))).length).head? = none ∨
                ∃ c, (((rest1.dropWhile (fun c => decide (c = '/'))).drop
                  ((rest1.dropWhile (fun c => decide (c = '/'))).takeWhile
                    (fun c => !(isHostDelim c))).length).head? = some c ∧
                  isHostDelim c = true)) := by
              rw [hdrop]
              cases hhd : ((rest1.dropWhile (fun c => decide (c = '/'))).dropWhile
                  (fun c => !(isHostDelim c))).head? with
              | none => exact Or.inl rfl
              | some c =>
                refine Or.inr ⟨c, rfl, ?_⟩
                have hc := head_dropWhile_false (fun c => !(isHostDelim c)) _ c hhd
                simpa using hc
            obtain ⟨hpdfacts, hr3⟩ := parsePortAndAfter_inv hpp hrest
            have hpqf := parsePathQueryFrag_inv rest3 hr3
            refine ⟨hsch' ▸ hcond, ?_, ?_, ?_, ?_, ?_, ?_⟩
            · rw [← hhost']
              intro hnil
              rw [List.map_eq_nil_iff] at hnil
              exact hrawne hnil
            · rw [← hhost']
              exact hallhost
            · intro cp hcp
              rw [← hport'] at hcp
              cases pd with
              | none =>
                dsimp only at hcp
                exact Option.noConfusion hcp
              | some cp' =>
                dsimp only at hcp
                by_cases hd : cp' = defaultPort ((s.takeWhile isSchemeChar).map lowerChar)
                · rw [if_pos hd] at hcp
                  exact Option.noConfusion hcp
                · rw [if_neg hd] at hcp
                  rw [Option.some.injEq] at hcp
                  obtain ⟨h1, h2, h3⟩ := hpdfacts cp' rfl
                  refine ⟨hcp ▸ h1, hcp ▸ h2, hcp ▸ h3, ?_⟩
                  rw [← hcp, ← hsch']
                  exact hd
            · rw [← hpath']
              exact hpqf.1
            · rw [← hpath']
              exact hpqf.2.1
            · intro qs hqs
              rw [← hq'] at hqs
              exact hpqf.2.2 qs hqs
      · rename_i hcond
        exact absurd h (by simp)
    · exact Option.noConfusion h
  · exact Option.noConfusion h

/-- Lowering preserves ASCII letters. -/
theorem lowerChar_alphaChar {c : Char} (h : isAlphaChar c = true) :
    isAlphaChar (lowerChar c) = true := by
  unfold lowerChar
  by_cases hu : 65 ≤ c.toNat ∧ c.toNat ≤ 90
  · rw [if_pos hu]
    unfold isAlphaChar
    rw [decide_eq_true_eq]
    have ht : (Char.ofNat (c.toNat + 32)).toNat = c.toNat + 32 :=
      char_toNat_ofNat (by omega)
    rw [ht]
    omega
  · rw [if_neg hu]
    exact h

/-- Lowering preserves scheme characters. -/
theorem lowerChar_schemeChar {c : Char} (h : isSchemeChar c = true) :
    isSchemeChar (lowerChar c) = true := by
  unfold isSchemeChar at h ⊢
  simp only [Bool.or_eq_true] at h
  rcases h with (((ha | hd) | hp) | hm) | hdot
  · simp only [Bool.or_eq_true]
    exact Or.inl (Or.inl (Or.inl (Or.inl (lowerChar_alphaChar ha))))
  · have hfix : lowerChar c = c := by
      unfold isDigitChar at hd
      rw [decide_eq_true_eq] at hd
      unfold lowerChar
      rw [if_neg (by omega)]
    rw [hfix]
    simp only [Bool.or_eq_true]
    exact Or.inl (Or.inl (Or.inl (Or.inr hd)))
  · rw [decide_eq_true_eq] at hp
    subst hp
    decide
  · rw [decide_eq_true_eq] at hm
    subst hm
    decide
  · rw [decide_eq_true_eq] at hdot
    subst hdot
    decide

/-- Lowering a list twice is lowering it once. -/
theorem map_lower_idem : ∀ l : List Char,
    (l.map lowerChar).map lowerChar = l.map lowerChar := by
  intro l
  induction l with
  | nil => rfl
  | cons c cs ih => rw [List.map_cons, List.map_cons, lowerChar_lowerChar, ih]

/-- A letter is not whitespace. -/
theorem alphaChar_not_ws {c : Char} (h : isAlphaChar c = true) :
    isWsChar c = false := by
  unfold isAlphaChar at h
  rw [decide_eq_true_eq] at h
  unfold isWsChar
  simp only [Bool.or_eq_false_iff, decide_eq_false_iff_not]
  refine ⟨⟨⟨⟨⟨?_, ?_⟩, ?_⟩, ?_⟩, ?_⟩, ?_⟩ <;>
    (intro heq; subst heq; revert h; decide)

/-- Inversion for a successful non-special parse. -/
theorem urlParse_inv_nonspecial (s sch rest : List Char)
    (h : urlParse s = some (.nonspecial sch rest)) :
    sch ≠ [] ∧ sch.all isSchemeChar = true ∧
    (∀ c, sch.head? = some c → isAlphaChar c = true) ∧
    sch.map lowerChar = sch ∧
    ¬ (sch = "http".toList ∨ sch = "https".toList) := by
  unfold urlParse at h
  dsimp only at h
  split at h
  · exact Option.noConfusion h
  · rename_i c0 heq0
    split at h
    · split at h
      · rename_i rest1 heq1
        split at h
        · rename_i hcond
          split at h
          · exact Option.noConfusion h
          · split at h
            · exact Option.noConfusion h
            · exact ParsedUrl.noConfusion (Option.some.inj h)
        · rename_i hcond
          rw [Option.some.injEq, ParsedUrl.nonspecial.injEq] at h
          obtain ⟨hsch', hrest'⟩ := h
          have hschne : s.takeWhile isSchemeChar ≠ [] := by
            intro hnil
            rw [hnil] at heq0
            exact Option.noConfusion heq0
          refine ⟨?_, ?_, ?_, ?_, ?_⟩
          · rw [← hsch']
            intro hnil
            rw [List.map_eq_nil_iff] at hnil
            exact hschne hnil
          · rw [← hsch', List.all_map]
            exact all_imp (fun c hc => lowerChar_schemeChar hc) _
              (all_takeWhile isSchemeChar s)
          · intro c hc
            rw [← hsch', List.head?_map, heq0] at hc
            simp only [Option.map_some', Option.some.injEq] at hc
            rw [← hc]
            rename_i x0 halpha0 rest0
            exact lowerChar_alphaChar halpha0
          · rw [← hsch']
            exact map_lower_idem _
          · rw [← hsch']
            exact hcond
      · exact Option.noConfusion h
    · exact Option.noConfusion h

/-- Parsing the serialization of a well-formed non-special URL returns
it unchanged. -/
theorem urlParse_nonspecial_eval (sch rest : List Char)
    (hne : sch ≠ []) (hall : sch.all isSchemeChar = true)
    (halpha : ∀ c, sch.head? = some c → isAlphaChar c = true)
    (hlow : sch.map lowerChar = sch)
    (hns : ¬ (sch = "http".toList ∨ sch = "https".toList)) :
    urlParse (urlToString (.nonspecial sch rest)) = some (.nonspecial sch rest) := by
  show urlParse (sch ++ ':' :: rest) = some (.nonspecial sch rest)
  rw [urlParse_split_scheme sch rest hne hall halpha]
  rw [hlow, if_neg hns]

/-- A parsed URL survives a serialize-and-reparse round trip. -/
theorem urlParse_roundtrip (s : List Char) (u : ParsedUrl) (h : urlParse s = some u) :
    urlParse (urlToString u) = some u := by
  cases u with
  | special sch host port path q f =>
    obtain ⟨h1, h2, h3, h4, h5, h6, h7⟩ := urlParse_inv_special s sch host port path q f h
    exact urlParse_special_eval sch host port path q f h1 h2 h3 h4 h5 h6 h7
  | nonspecial sch rest =>
    obtain ⟨h1, h2, h3, h4, h5⟩ := urlParse_inv_nonspecial s sch rest h
    exact urlParse_nonspecial_eval sch rest h1 h2 h3 h4 h5

/-- `getLast?` sees only a nonempty right factor. -/
theorem getLast?_append_right (a b : List Char) (hb : b ≠ []) :
    (a ++ b).getLast? = b.getLast? := by
  rw [← List.head?_reverse, ← List.head?_reverse, List.reverse_append]
  obtain ⟨c, cs, hr⟩ : ∃ c cs, b.reverse = c :: cs := by
    cases hbr : b.reverse with
    | nil =>
      exact absurd (by rw [← List.reverse_reverse b, hbr]; rfl) hb
    | cons c cs => exact ⟨c, cs, rfl⟩
  rw [hr, List.cons_append, List.head?_cons, List.head?_cons]

/-- `getLast?` skips a head whose tail is nonempty. -/
theorem getLast?_cons_of_ne_nil (c : Char) (l : List Char) (h : l ≠ []) :
    (c :: l).getLast? = l.getLast? := by
  show (([c] : List Char) ++ l).getLast? = l.getLast?
  exact getLast?_append_right [c] l h

/-- A nonempty suffix has the same last element as the whole list. -/
theorem getLast?_suffix {t s : List Char} (h : t <:+ s) (hne : t ≠ []) :
    t.getLast? = s.getLast? := by
  obtain ⟨pre, rfl⟩ := h
  rw [getLast?_append_right pre t hne]

/-- The trimmed list is a prefix of the left-trimmed list. -/
theorem trimChars_prefix_decomp (l : List Char) :
    trimChars l ++ ((l.dropWhile isWsChar).reverse.takeWhile isWsChar).reverse =
      l.dropWhile isWsChar := by
  unfold trimChars
  rw [← List.reverse_append, List.takeWhile_append_dropWhile, List.reverse_reverse]

/-- A trimmed list does not start with whitespace. -/
theorem trimChars_head_not_ws (l : List Char) :
    ∀ c, (trimChars l).head? = some c → isWsChar c = false := by
  intro c hc
  have hd := trimChars_prefix_decomp l
  have hm : (l.dropWhile isWsChar).head? = some c := by
    rw [← hd]
    cases htr : trimChars l with
    | nil =>
      rw [htr] at hc
      exact Option.noConfusion hc
    | cons d ds =>
      rw [htr] at hc
      rw [List.cons_append, List.head?_cons]
      rw [List.head?_cons] at hc
      exact hc
  exact head_dropWhile_false isWsChar l c hm

/-- `getLast?` of a reversal is `head?`. -/
theorem getLast?_reverse' (x : List Char) : x.reverse.getLast? = x.head? := by
  rw [← List.head?_reverse, List.reverse_reverse]

/-- A trimmed list does not end with whitespace. -/
theorem trimChars_getLast_not_ws (l : List Char) :
    ∀ c, (trimChars l).getLast? = some c → isWsChar c = false := by
  intro c hc
  unfold trimChars at hc
  rw [getLast?_reverse'] at hc
  exact head_dropWhile_false isWsChar _ c hc

/-- A list with non-whitespace ends is its own trim. -/
theorem trimChars_eq_self (l : List Char)
    (hh : ∀ c, l.head? = some c → isWsChar c = false)
    (hl : ∀ c, l.getLast? = some c → isWsChar c = false) :
    trimChars l = l := by
  unfold trimChars
  have h1 : l.dropWhile isWsChar = l := by
    cases l with
    | nil => rfl
    | cons c cs => exact dropWhile_cons_neg (hh c rfl)
  rw [h1]
  have h2 : l.reverse.dropWhile isWsChar = l.reverse := by
    cases hr : l.reverse with
    | nil => rfl
    | cons c cs =>
      have hlast : l.getLast? = some c := by
        rw [← List.head?_reverse, hr, List.head?_cons]
      exact dropWhile_cons_neg (hl c hlast)
  rw [h2, List.reverse_reverse]

/-- A non-path character is the query or fragment delimiter. -/
theorem not_pathChar {c : Char} (h : isPathChar c = false) : c = '?' ∨ c = '#' := by
  unfold isPathChar at h
  rw [decide_eq_false_iff_not] at h
  rcases not_and_or.mp h with h2 | h2
  · exact Or.inl (not_not.mp h2)
  · exact Or.inr (not_not.mp h2)

/-- A non-query character is the fragment delimiter. -/
theorem not_queryChar {c : Char} (h : isQueryChar c = false) : c = '#' := by
  unfold isQueryChar at h
  rw [decide_eq_false_iff_not, not_not] at h
  exact h

/-- The remainder returned by `parsePortAndAfter` is a suffix of its input. -/
theorem parsePortAndAfter_suffix {rest : List Char} {pd : Option (List Char)}
    {after : List Char} (h : parsePortAndAfter rest = some (pd, after)) :
    after <:+ rest := by
  unfold parsePortAndAfter at h
  split at h
  · rename_i pr
    dsimp only at h
    split at h
    · rw [Option.some.injEq, Prod.mk.injEq] at h
      obtain ⟨-, h2⟩ := h
      rw [← h2]
      exact (List.drop_suffix _ _).trans (List.suffix_cons ':' pr)
    · split at h
      · rw [Option.some.injEq, Prod.mk.injEq] at h
        obtain ⟨-, h2⟩ := h
        rw [← h2]
        exact (List.drop_suffix _ _).trans (List.suffix_cons ':' pr)
      · exact Option.noConfusion h
  · rw [Option.some.injEq, Prod.mk.injEq] at h
    obtain ⟨-, h2⟩ := h
    rw [← h2]

/-- `getLast?` of a serialized special URL is `getLast?` of its final
segment. -/
theorem getLast?_serialized (A B P R : List Char) (hR : R ≠ []) :
    (A ++ ':' :: '/' :: '/' :: (B ++ (P ++ R))).getLast? = R.getLast? := by
  show (A ++ ([':', '/', '/'] ++ (B ++ (P ++ R)))).getLast? = R.getLast?
  have hPR : P ++ R ≠ [] := by
    intro hx
    rw [List.append_eq_nil] at hx
    exact hR hx.2
  have hBPR : B ++ (P ++ R) ≠ [] := by
    intro hx
    rw [List.append_eq_nil] at hx
    exact hPR hx.2
  rw [getLast?_append_right _ _ (by
    intro hx
    rw [List.append_eq_nil] at hx
    exact hBPR hx.2)]
  rw [getLast?_append_right _ _ hBPR, getLast?_append_right _ _ hPR,
    getLast?_append_right _ _ hR]

/-- The serialized path-query-fragment tail reconstructs the parsed
remainder, up to supplying the `/` of an empty path. -/
theorem parsePathQueryFrag_reconstruct (rest : List Char) :
    ((parsePathQueryFrag rest).1 ++
      ((parsePathQueryFrag rest).2.1.elim [] (fun qs => '?' :: qs) ++
        (parsePathQueryFrag rest).2.2.elim [] (fun fs => '#' :: fs)) = rest ∧
      rest ≠ []) ∨
    (parsePathQueryFrag rest).1 ++
      ((parsePathQueryFrag rest).2.1.elim [] (fun qs => '?' :: qs) ++
        (parsePathQueryFrag rest).2.2.elim [] (fun fs => '#' :: fs)) = '/' :: rest := by
  have hsplit : rest.takeWhile isPathChar ++
      rest.drop (rest.takeWhile isPathChar).length = rest := by
    rw [drop_length_takeWhile, List.takeWhile_append_dropWhile]
  generalize hpq : parsePathQueryFrag rest = Pr
  obtain ⟨path, q, f⟩ := Pr
  dsimp only
  unfold parsePathQueryFrag at hpq
  dsimp only at hpq
  split at hpq
  · rename_i qr heq1
    split at hpq
    · rename_i fr heq2
      rw [Prod.mk.injEq, Prod.mk.injEq] at hpq
      obtain ⟨hp1, hp2, hp3⟩ := hpq
      subst hp1
      subst hp2
      subst hp3
      simp only [Option.elim_some]
      have hqsplit : qr.takeWhile isQueryChar ++
          qr.drop (qr.takeWhile isQueryChar).length = qr := by
        rw [drop_length_takeWhile, List.takeWhile_append_dropWhile]
      have htail : ('?' :: qr.takeWhile isQueryChar) ++ '#' :: fr = '?' :: qr := by
        rw [List.cons_append, ← heq2, hqsplit]
      by_cases hp : rest.takeWhile isPathChar = []
      · right
        rw [if_pos hp, htail]
        rw [hp, List.length_nil, List.drop_zero] at heq1
        rw [heq1]
        rfl
      · left
        refine ⟨?_, ?_⟩
        · rw [if_neg hp, htail, ← heq1]
          exact hsplit
        · intro hx
          apply hp
          rw [hx]
          rfl
    · rename_i hne2
      rw [Prod.mk.injEq, Prod.mk.injEq] at hpq
      obtain ⟨hp1, hp2, hp3⟩ := hpq
      subst hp1
      subst hp2
      subst hp3
      simp only [Option.elim_some, Option.elim_none, List.append_nil]
      have hqsplit : qr.takeWhile isQueryChar ++
          qr.drop (qr.takeWhile isQueryChar).length = qr := by
        rw [drop_length_takeWhile, List.takeWhile_append_dropWhile]
      have hr0 : qr.drop (qr.takeWhile isQueryChar).length = [] := by
        rw [drop_length_takeWhile]
        cases hdq : qr.dropWhile isQueryChar with
        | nil => rfl
        | cons c cs =>
          exfalso
          have hcq := head_dropWhile_false isQueryChar qr c (by rw [hdq]; rfl)
          have hch := not_queryChar hcq
          subst hch
          exact hne2 cs (by rw [drop_length_takeWhile, hdq])
      rw [hr0, List.append_nil] at hqsplit
      have htail : ('?' :: qr.takeWhile isQueryChar : List Char) = '?' :: qr := by
        rw [hqsplit]
      by_cases hp : rest.takeWhile isPathChar = []
      · right
        rw [if_pos hp, htail]
        rw [hp, List.length_nil, List.drop_zero] at heq1
        rw [heq1]
        rfl
      · left
        refine ⟨?_, ?_⟩
        · rw [if_neg hp, htail, ← heq1]
          exact hsplit
        · intro hx
          apply hp
          rw [hx]
          rfl
  · rename_i fr heq1
    rw [Prod.mk.injEq, Prod.mk.injEq] at hpq
    obtain ⟨hp1, hp2, hp3⟩ := hpq
    subst hp1
    subst hp2
    subst hp3
    simp only [Option.elim_some, Option.elim_none, List.nil_append]
    by_cases hp : rest.takeWhile isPathChar = []
    · right
      rw [if_pos hp]
      rw [hp, List.length_nil, List.drop_zero] at heq1
      rw [heq1]
      rfl
    · left
      refine ⟨?_, ?_⟩
      · rw [if_neg hp, ← heq1]
        exact hsplit
      · intro hx
        apply hp
        rw [hx]
        rfl
  · rename_i hne1 hne2
    rw [Prod.mk.injEq, Prod.mk.injEq] at hpq
    obtain ⟨hp1, hp2, hp3⟩ := hpq
    subst hp1
    subst hp2
    subst hp3
    simp only [Option.elim_none, List.nil_append, List.append_nil]
    have hr0 : rest.drop (rest.takeWhile isPathChar).length = [] := by
      rw [drop_length_takeWhile]
      cases hdq : rest.dropWhile isPathChar with
      | nil => rfl
      | cons c cs =>
        exfalso
        have hcq := head_dropWhile_false isPathChar rest c (by rw [hdq]; rfl)
        rcases not_pathChar hcq with hch | hch
        · subst hch
          exact hne1 cs (by rw [drop_length_takeWhile, hdq])
        · subst hch
          exact hne2 cs (by rw [drop_length_takeWhile, hdq])
    rw [hr0, List.append_nil] at hsplit
    by_cases hp : rest.takeWhile isPathChar = []
    · right
      rw [if_pos hp, ← hsplit, hp]
    · left
      refine ⟨?_, ?_⟩
      · rw [if_neg hp]
        exact hsplit
      · intro hx
        apply hp
        rw [hx]
        rfl

/-- A parsed URL's serialization does not start with whitespace. -/
theorem urlToString_head_not_ws (s : List Char) (u : ParsedUrl)
    (h : urlParse s = some u) :
    ∀ c, (urlToString u).head? = some c → isWsChar c = false := by
  intro c hc
  cases u with
  | special sch host port path q f =>
    obtain ⟨hsch, -, -, -, -, -, -⟩ := urlParse_inv_special s sch host port path q f h
    rw [urlToString_special_assoc] at hc
    rcases hsch with rfl | rfl
    · rw [show ("http".toList : List Char) = 'h' :: 't' :: 't' :: 'p' :: [] from rfl,
        List.cons_append, List.head?_cons, Option.some.injEq] at hc
      rw [← hc]
      decide
    · rw [show ("https".toList : List Char) = 'h' :: 't' :: 't' :: 'p' :: 's' :: [] from rfl,
        List.cons_append, List.head?_cons, Option.some.injEq] at hc
      rw [← hc]
      decide
  | nonspecial sch rest =>
    obtain ⟨hne, -, halpha, -, -⟩ := urlParse_inv_nonspecial s sch rest h
    obtain ⟨c0, sch', rfl⟩ : ∃ c0 sch', sch = c0 :: sch' := by
      cases sch with
      | nil => exact absurd rfl hne
      | cons a b => exact ⟨a, b, rfl⟩
    rw [show urlToString (ParsedUrl.nonspecial (c0 :: sch') rest) =
        (c0 :: sch') ++ ':' :: rest from rfl, List.cons_append, List.head?_cons,
      Option.some.injEq] at hc
    rw [← hc]
    exact alphaChar_not_ws (halpha c0 rfl)

/-- A parsed URL's serialization ends in a non-whitespace character or
in the last character of the parsed text. -/
theorem urlToString_getLast_ws (s : List Char) (u : ParsedUrl)
    (h : urlParse s = some u) :
    ∀ c, (urlToString u).getLast? = some c → isWsChar c = false ∨
      s.getLast? = some c := by
  unfold urlParse at h
  dsimp only at h
  split at h
  · exact Option.noConfusion h
  · rename_i c0 heq0
    split at h
    · split at h
      · rename_i rest1 heq1
        have hs : s.takeWhile isSchemeChar ++ ':' :: rest1 = s := by
          rw [← heq1, drop_length_takeWhile, List.takeWhile_append_dropWhile]
        have hrest1 : rest1 <:+ s :=
          ⟨s.takeWhile isSchemeChar ++ [':'], by
            rw [List.append_assoc, List.singleton_append]
            exact hs⟩
        split at h
        · rename_i hcond
          split at h
          · exact Option.noConfusion h
          · rename_i hhostcond
            split at h
            · exact Option.noConfusion h
            · rename_i pd rest3 hpp
              rw [Option.some.injEq] at h
              subst h
              intro c hc
              rw [urlToString_special_assoc] at hc
              have hr3 : rest3 <:+ s := by
                refine (((parsePortAndAfter_suffix hpp).trans
                  (List.drop_suffix _ _)).trans ?_).trans hrest1
                exact List.dropWhile_suffix _
              rcases parsePathQueryFrag_reconstruct rest3 with ⟨hrec, hr3ne⟩ | hrec
              · rw [hrec, getLast?_serialized _ _ _ _ hr3ne] at hc
                right
                rw [← getLast?_suffix hr3 hr3ne]
                exact hc
              · rw [hrec, getLast?_serialized _ _ _ _
                  (by intro hx; exact List.noConfusion hx)] at hc
                cases rest3 with
                | nil =>
                  left
                  rw [show (('/' :: [] : List Char)).getLast? = some '/' from rfl,
                    Option.some.injEq] at hc
                  rw [← hc]
                  decide
                | cons d ds =>
                  right
                  rw [getLast?_cons_of_ne_nil '/' _
                    (by intro hx; exact List.noConfusion hx)] at hc
                  rw [← getLast?_suffix hr3 (by intro hx; exact List.noConfusion hx)]
                  exact hc
        · rename_i hcond
          rw [Option.some.injEq] at h
          subst h
          intro c hc
          rw [show urlToString (ParsedUrl.nonspecial
              ((s.takeWhile isSchemeChar).map lowerChar) rest1) =
              (s.takeWhile isSchemeChar).map lowerChar ++ ':' :: rest1 from rfl] at hc
          cases rest1 with
          | nil =>
            left
            rw [getLast?_append_right _ _ (by intro hx; exact List.noConfusion hx),
              show ((':' :: [] : List Char)).getLast? = some ':' from rfl,
              Option.some.injEq] at hc
            rw [← hc]
            decide
          | cons d ds =>
            right
            rw [getLast?_append_right _ _ (by intro hx; exact List.noConfusion hx),
              getLast?_cons_of_ne_nil ':' _ (by intro hx; exact List.noConfusion hx)] at hc
            rw [← getLast?_suffix hrest1 (by intro hx; exact List.noConfusion hx)]
            exact hc
      · exact Option.noConfusion h
    · exact Option.noConfusion h

/-- `toExternalHttpUrl` is idempotent: a URL it has already normalized
normalizes to itself. -/
theorem toExternalHttpUrl_idem (raw s : List Char)
    (h : toExternalHttpUrl raw = some s) : toExternalHttpUrl s = some s := by
  unfold toExternalHttpUrl at h
  dsimp only at h
  split at h
  · exact Option.noConfusion h
  · rename_i htr
    split at h
    · exact Option.noConfusion h
    · rename_i u hu
      split at h
      · exact Option.noConfusion h
      · rename_i hproto
        split at h
        · exact Option.noConfusion h
        · rename_i hlocal
          rw [Option.some.injEq] at h
          subst h
          have hpr := urlParse_roundtrip _ u hu
          have hne : urlToString u ≠ [] := by
            intro hx
            rw [hx] at hpr
            exact Option.noConfusion
              ((show urlParse ([] : List Char) = none from rfl) ▸ hpr)
          have htrim : trimChars (urlToString u) = urlToString u :=
            trimChars_eq_self _ (urlToString_head_not_ws _ u hu)
              (by
                intro c hc
                rcases urlToString_getLast_ws _ u hu c hc with hws | hlast
                · exact hws
                · exact trimChars_getLast_not_ws raw c hlast)
          unfold toExternalHttpUrl
          dsimp only
          rw [htrim, if_neg hne, hpr]
          dsimp only
          rw [if_neg hproto, if_neg hlocal]

/-!
## C10: normalized serialization as record key
-/

/-- C10: two textually different link targets that parse to the same
URL (for example `https://x.com` and `https://x.com/`) normalize to the
same serialization, so they merge into a single `LinkRecord` keyed by
`parsed.toString()`; and normalization is idempotent: re-parsing an
already-normalized URL returns it unchanged. -/
theorem C10_normalized_key_merges_idempotent :
    (∀ raw s, toExternalHttpUrl raw = some s → toExternalHttpUrl s = some s) ∧
    toExternalHttpUrl "https://x.com".toList = some "https://x.com/".toList ∧
    toExternalHttpUrl "https://x.com/".toList = some "https://x.com/".toList ∧
    buildRecords [("f", "[a](https://x.com)\n[b](https://x.com/)".toList)] =
      [("https://x.com/".toList, [("f", 1), ("f", 2)])] := by
  refine ⟨toExternalHttpUrl_idem, ?_, ?_, ?_⟩
  · decide
  · decide
  · decide

/-- C10 witness: the idempotence component applied at a concrete
non-normalized spelling. -/
theorem C10_normalized_key_merges_idempotent_witness :
    toExternalHttpUrl "HTTPS://X.com:0443/a".toList = some "https://x.com/a".toList ∧
    toExternalHttpUrl "https://x.com/a".toList = some "https://x.com/a".toList := by
  constructor
  · decide
  · exact C10_normalized_key_merges_idempotent.1 "HTTPS://X.com:0443/a".toList
      "https://x.com/a".toList (by decide)
